import Mathlib

/-!
Verification development for the charm token-stream cursor ("tokenizer").

The Rust sources embedded here are `src/logic/tokenizer.rs` and
`src/model/document/structure.rs`.  The `addr`, `token`, `document` and
`change` modules are not part of the provided sources, so their data
model is modelled from the specification (each such definition carries a
doc comment starting with `Modelled from the spec:`).

Addresses and sizes are modelled in *bits*: the spec describes an
Address as a byte offset plus a sub-byte bit offset, which is in
bijection with a single natural number of bits.  `addr::unit::NULL`
becomes `0`, `addr::unit::BIT` becomes `1`, and a byte quantity `n`
becomes `8 * n`.
-/

namespace Charm

/- Modelled from the spec: `addr::Address` (missing `model/addr.rs`) is
a byte offset plus a sub-byte bit offset, and `addr::Size` a byte+bit
magnitude; both are represented throughout as a plain `Nat` counting
total bits, which keeps linear-arithmetic automation applicable. -/

/-- Convert a byte count to an address/size in bits. -/
def byteAddr (n : Nat) : Nat := 8 * n

/-- Modelled from the spec: `addr::Extent` (missing `model/addr.rs`), a
half-open range `[begin, end)` of Addresses. -/
structure Extent where
  begin : Nat
  end_ : Nat
deriving Repr, DecidableEq

/-- Modelled from the spec: `Extent::between`. -/
def Extent.between (b e : Nat) : Extent := ⟨b, e⟩

/-- Modelled from the spec: `Extent::sized`, a begin Address plus a Size. -/
def Extent.sized (b : Nat) (s : Nat) : Extent := ⟨b, b + s⟩

/-- Modelled from the spec: extent containment test `Extent::includes`. -/
def Extent.includes (x : Extent) (a : Nat) : Bool :=
  decide (x.begin ≤ a) && decide (a < x.end_)

/- ---------------------------------------------------------------------
   model/document/structure.rs
--------------------------------------------------------------------- -/

/-- `structure::TitleDisplay`. -/
inductive TitleDisplay where
  | Inline
  | Major
  | Minor
deriving Repr, DecidableEq

/-- `structure::ChildrenDisplay`. -/
inductive ChildrenDisplay where
  | None
  | Summary
  | Full
deriving Repr, DecidableEq

/-- `structure::ContentDisplay`. -/
inductive ContentDisplay where
  | None
  | Hexdump (pitch : Nat)
  | Hexstring
deriving Repr, DecidableEq

/-- `structure::Path`: sequence of child indices from the root. -/
abbrev Path := List Nat

/-- `structure::Properties`. -/
structure Properties where
  name : String
  title_display : TitleDisplay
  children_display : ChildrenDisplay
  content_display : ContentDisplay
  locked : Bool
deriving Repr, DecidableEq

mutual
/-- `structure::Node`: props, size, and ordered children. -/
inductive Node where
  | mk (props : Properties) (size : Nat) (children : ChildList)
deriving Repr

/-- The ordered child list of a `Node`; each entry is a
`structure::Childhood` (offset paired with child node), unfolded into a
bespoke list type so that `Node` is a plain mutual inductive. -/
inductive ChildList where
  | nil
  | cons (offset : Nat) (node : Node) (rest : ChildList)
deriving Repr
end

/-- `structure::Childhood`: a child `Node` paired with its offset within
the parent. -/
structure Childhood where
  node : Node
  offset : Nat
deriving Repr

def ChildList.toList : ChildList → List Childhood
  | .nil => []
  | .cons o n rest => ⟨n, o⟩ :: rest.toList

def Node.props : Node → Properties
  | .mk p _ _ => p

def Node.size : Node → Nat
  | .mk _ s _ => s

def Node.children : Node → List Childhood
  | .mk _ _ c => c.toList

/-- `Childhood::end`. -/
def Childhood.end_ (c : Childhood) : Nat := c.offset + c.node.size

/-- `Childhood::extent`. -/
def Childhood.extent (c : Childhood) : Extent := Extent.sized c.offset c.node.size

/-- `TitleDisplay::has_blanks`. -/
def TitleDisplay.has_blanks : TitleDisplay → Bool
  | .Inline => false
  | .Major => true
  | .Minor => false

/-- `TitleDisplay::is_inline`. -/
def TitleDisplay.is_inline : TitleDisplay → Bool
  | .Inline => true
  | .Major => false
  | .Minor => false

/-- `ContentDisplay::preferred_pitch`. -/
def ContentDisplay.preferred_pitch : ContentDisplay → Option Nat
  | .None => none
  | .Hexdump pitch => some pitch
  | .Hexstring => none

/-- The default childhood used to make list indexing total where the
Rust source indexes a `Vec` directly (the source would panic out of
bounds; all theorems only evaluate in-bounds states). -/
def defaultChildhood : Childhood :=
  ⟨Node.mk ⟨"default", .Major, .Full, .Hexdump (byteAddr 16), true⟩ 0 .nil, 0⟩

/- ---------------------------------------------------------------------
   model/listing/token.rs (modelled from the spec)
--------------------------------------------------------------------- -/

/-- Modelled from the spec: `token::PunctuationClass` (missing
`model/listing/token.rs`). -/
inductive PunctuationClass where
  | Empty
  | Space
  | Comma
  | OpenBracket
  | CloseBracket
deriving Repr, DecidableEq

/-- Modelled from the spec: `token::TokenClass` (missing
`model/listing/token.rs`). -/
inductive TokenClass where
  | Title
  | SummaryLabel
  | Hexdump (extent : Extent)
  | Hexstring (extent : Extent)
  | Punctuation (p : PunctuationClass)
deriving Repr, DecidableEq

/-- Modelled from the spec: `token::Token` (missing
`model/listing/token.rs`): class, owning node, absolute node address,
nesting depth, newline flag. -/
structure Token where
  class_ : TokenClass
  node : Node
  node_addr : Nat
  depth : Nat
  newline : Bool
deriving Repr

/- ---------------------------------------------------------------------
   logic/tokenizer.rs : state machine data
--------------------------------------------------------------------- -/

/-- `TokenizerState`. -/
inductive TokenizerState where
  | PreBlank
  | Title
  | MetaContent (offset : Nat) (index : Nat)
  | Hexdump (extent : Extent) (index : Nat)
  | Hexstring (extent : Extent) (index : Nat)
  | SummaryOpener
  | SummaryLabel (i : Nat)
  | SummarySeparator (i : Nat)
  | SummaryCloser
  | SummaryNewline
  | SummaryValueBegin
  | SummaryLeaf
  | SummaryValueEnd
  | PostBlank
  | End
deriving Repr, DecidableEq

/-- `TokenizerDescent`. -/
inductive TokenizerDescent where
  | Child (i : Nat)
  | ChildSummary (i : Nat)
  | MySummary
deriving Repr, DecidableEq

/-- `TokenizerStackEntry`; the `Option` field plays the role of the
`Option<Arc<TokenizerStackEntry>>` parent link. -/
inductive TokenizerStackEntry where
  | mk (stack : Option TokenizerStackEntry) (descent : TokenizerDescent)
       (depth : Nat) (node : Node) (node_addr : Nat)
deriving Repr

def TokenizerStackEntry.stack : TokenizerStackEntry → Option TokenizerStackEntry
  | .mk s _ _ _ _ => s

def TokenizerStackEntry.descent : TokenizerStackEntry → TokenizerDescent
  | .mk _ d _ _ _ => d

def TokenizerStackEntry.depth : TokenizerStackEntry → Nat
  | .mk _ _ dep _ _ => dep

def TokenizerStackEntry.node : TokenizerStackEntry → Node
  | .mk _ _ _ n _ => n

def TokenizerStackEntry.node_addr : TokenizerStackEntry → Nat
  | .mk _ _ _ _ a => a

/-- `Tokenizer`. -/
structure Tokenizer where
  stack : Option TokenizerStackEntry
  state : TokenizerState
  depth : Nat
  node : Node
  node_addr : Nat
deriving Repr

/-- `TokenGenerationResult`. -/
inductive TokenGenerationResult where
  | Ok (t : Token)
  | Skip
  | Boundary
deriving Repr

/-- `AscendDirection`. -/
inductive AscendDirection where
  | Prev
  | Next

/- ---------------------------------------------------------------------
   logic/tokenizer.rs : TokenizerDescent helpers
--------------------------------------------------------------------- -/

/-- `TokenizerDescent::childhood`. -/
def TokenizerDescent.childhood (d : TokenizerDescent) (node : Node) : Childhood :=
  match d with
  | .Child i => node.children.getD i defaultChildhood
  | .ChildSummary i => node.children.getD i defaultChildhood
  | .MySummary => ⟨node, 0⟩

/-- `TokenizerDescent::depth_change`. -/
def TokenizerDescent.depth_change : TokenizerDescent → Nat
  | .Child _ => 1
  | .ChildSummary _ => 1
  | .MySummary => 0

/-- `TokenizerDescent::before_state`. -/
def TokenizerDescent.before_state (d : TokenizerDescent)
    (stack_entry : TokenizerStackEntry) : TokenizerState :=
  match d with
  | .Child i => .MetaContent (stack_entry.node.children.getD i defaultChildhood).offset i
  | .ChildSummary i => .SummaryLabel i
  | .MySummary => .Title

/-- `TokenizerDescent::after_state`. -/
def TokenizerDescent.after_state (d : TokenizerDescent)
    (stack_entry : TokenizerStackEntry) : TokenizerState :=
  match d with
  | .Child i => .MetaContent (stack_entry.node.children.getD i defaultChildhood).end_ (i + 1)
  | .ChildSummary i => .SummarySeparator i
  | .MySummary => .SummaryNewline

/-- `TokenizerDescent::build_path`. -/
def TokenizerDescent.build_path (d : TokenizerDescent) (path : Path) : Path :=
  match d with
  | .Child i => path ++ [i]
  | .ChildSummary i => path ++ [i]
  | .MySummary => path

/-- `TokenizerStackEntry::build_path` (recurses to the root end first). -/
def TokenizerStackEntry.build_path : Option TokenizerStackEntry → Path → Path
  | none, path => path
  | some (.mk s d _ _ _), path => d.build_path (TokenizerStackEntry.build_path s path)

/- ---------------------------------------------------------------------
   logic/tokenizer.rs : constructors, token generation, movement
--------------------------------------------------------------------- -/

/-- `Tokenizer::at_beginning`. -/
def Tokenizer.at_beginning (root : Node) : Tokenizer :=
  { stack := none, state := .PreBlank, depth := 0, node := root, node_addr := 0 }

/-- `Tokenizer::at_end`. -/
def Tokenizer.at_end (root : Node) : Tokenizer :=
  { stack := none, state := .End, depth := 0, node := root, node_addr := 0 }

/-- `Tokenizer::gen_token`. -/
def Tokenizer.gen_token (t : Tokenizer) : TokenGenerationResult :=
  match t.state with
  | .PreBlank =>
    if t.node.props.title_display.has_blanks then
      .Ok ⟨.Punctuation .Empty, t.node, t.node_addr, t.depth, true⟩
    else .Skip
  | .Title =>
    .Ok ⟨.Title, t.node, t.node_addr, t.depth, !t.node.props.title_display.is_inline⟩
  | .MetaContent _ _ => .Skip
  | .Hexdump extent _ =>
    .Ok ⟨.Hexdump extent, t.node, t.node_addr, t.depth + 1, true⟩
  | .Hexstring extent _ =>
    .Ok ⟨.Hexstring extent, t.node, t.node_addr, t.depth + 1, true⟩
  | .SummaryOpener =>
    .Ok ⟨.Punctuation .OpenBracket, t.node, t.node_addr, t.depth, false⟩
  | .SummaryLabel i =>
    let ch := t.node.children.getD i defaultChildhood
    .Ok ⟨.SummaryLabel, ch.node, t.node_addr + ch.offset, t.depth, false⟩
  | .SummarySeparator i =>
    if i + 1 < t.node.children.length then
      .Ok ⟨.Punctuation .Comma, t.node, t.node_addr, t.depth, false⟩
    else .Skip
  | .SummaryCloser =>
    .Ok ⟨.Punctuation .CloseBracket, t.node, t.node_addr, t.depth, false⟩
  | .SummaryNewline =>
    .Ok ⟨.Punctuation .Empty, t.node, t.node_addr, t.depth, true⟩
  | .SummaryValueBegin => .Skip
  | .SummaryLeaf =>
    let limit := min (byteAddr 16) t.node.size
    let extent := Extent.between 0 limit
    .Ok ⟨(match t.node.props.content_display with
          | .None => .Punctuation .Empty
          | .Hexdump _ => .Hexdump extent
          | .Hexstring => .Hexstring extent),
         t.node, t.node_addr, t.depth, false⟩
  | .SummaryValueEnd => .Skip
  | .PostBlank =>
    if t.node.props.title_display.has_blanks then
      .Ok ⟨.Punctuation .Empty, t.node, t.node_addr, t.depth, true⟩
    else .Skip
  | .End => .Skip

/-- `Tokenizer::descend`: push a stack entry and move focus into a child. -/
def Tokenizer.descend (t : Tokenizer) (descent : TokenizerDescent)
    (state_within : TokenizerState) : Tokenizer :=
  let childhood := descent.childhood t.node
  let parent_entry : TokenizerStackEntry := .mk t.stack descent t.depth t.node t.node_addr
  { stack := some parent_entry,
    state := state_within,
    depth := t.depth + descent.depth_change,
    node := childhood.node,
    node_addr := t.node_addr + childhood.offset }

/-- `Tokenizer::try_ascend`: pop a stack entry, `false` if there was no
parent (in which case the tokenizer is unchanged). -/
def Tokenizer.try_ascend (t : Tokenizer) (dir : AscendDirection) : Bool × Tokenizer :=
  match t.stack with
  | some e =>
    (true,
      { state := (match dir with
          | .Prev => e.descent.before_state e
          | .Next => e.descent.after_state e),
        stack := e.stack,
        depth := e.depth,
        node := e.node,
        node_addr := e.node_addr })
  | none => (false, t)

/-- The fall-through tail of the `MetaContent` arm of `Tokenizer::move_prev`
(content emission, else title). -/
def Tokenizer.metaContentPrevEmit (t : Tokenizer) (offset : Nat) (index : Nat)
    (pco : Option (Nat × Childhood)) : Bool × Tokenizer :=
  if 0 < offset then
    let preferred_begin := t.node.props.content_display.preferred_pitch.map
      (fun pitch => pitch * ((offset - 1) / pitch))
    let limit := match pco with
      | some (_, pc) => pc.end_
      | none => 0
    let b := match preferred_begin with
      | none => limit
      | some pb => max pb limit
    let extent := Extent.between b offset
    (true, { t with state := match t.node.props.content_display with
        | .None => .MetaContent limit index
        | .Hexdump _ => .Hexdump extent index
        | .Hexstring => .Hexstring extent index })
  else
    (true, { t with state := .Title })

/-- The fall-through tail of the `MetaContent` arm of `Tokenizer::move_next`
(content emission, else post-blank). -/
def Tokenizer.metaContentNextEmit (t : Tokenizer) (offset : Nat) (index : Nat)
    (nco : Option (Nat × Childhood)) : Bool × Tokenizer :=
  if offset < t.node.size then
    let preferred_end := t.node.props.content_display.preferred_pitch.map
      (fun pitch => pitch * (offset / pitch + 1))
    let limit := match nco with
      | some (_, nc) => nc.offset
      | none => t.node.size
    let e := match preferred_end with
      | none => limit
      | some pe => min pe limit
    let extent := Extent.between offset e
    (true, { t with state := match t.node.props.content_display with
        | .None => .MetaContent limit index
        | .Hexdump _ => .Hexdump extent index
        | .Hexstring => .Hexstring extent index })
  else
    (true, { t with state := .PostBlank })

/-- `Tokenizer::move_prev`: one raw step backwards; `false` only at the
stream start. -/
def Tokenizer.move_prev (t : Tokenizer) : Bool × Tokenizer :=
  match t.state with
  | .PreBlank => t.try_ascend .Prev
  | .Title => (true, { t with state := .PreBlank })
  | .MetaContent offset index =>
    let pco : Option (Nat × Childhood) := match index with
      | 0 => none
      | i + 1 => some (i, t.node.children.getD i defaultChildhood)
    match pco with
    | some (pci, pc) =>
      if offset ≤ pc.end_ then
        (true, t.descend (.Child pci) .End)
      else
        t.metaContentPrevEmit offset index pco
    | none => t.metaContentPrevEmit offset index none
  | .Hexstring extent index =>
    (true, { t with state := .MetaContent extent.begin index })
  | .Hexdump extent index =>
    (true, { t with state := .MetaContent extent.begin index })
  | .SummaryOpener => t.try_ascend .Prev
  | .SummaryLabel i =>
    if i = 0 then
      (true, { t with state := .SummaryOpener })
    else
      (true, { t with state := .SummarySeparator (i - 1) })
  | .SummarySeparator i =>
    (true, t.descend (.ChildSummary i) .SummaryValueEnd)
  | .SummaryCloser =>
    if t.node.children.length = 0 then
      (true, { t with state := .SummaryOpener })
    else
      (true, { t with state := .SummarySeparator (t.node.children.length - 1) })
  | .SummaryNewline =>
    (true, t.descend .MySummary .SummaryCloser)
  | .SummaryValueBegin => t.try_ascend .Prev
  | .SummaryLeaf => (true, { t with state := .SummaryValueBegin })
  | .SummaryValueEnd =>
    if t.node.children.length = 0 then
      (true, { t with state := .SummaryLeaf })
    else
      (true, { t with state := .SummaryCloser })
  | .PostBlank =>
    match t.node.props.children_display with
    | .None => (true, { t with state := .MetaContent t.node.size t.node.children.length })
    | .Summary => (true, { t with state := .SummaryNewline })
    | .Full => (true, { t with state := .MetaContent t.node.size t.node.children.length })
  | .End => (true, { t with state := .PostBlank })

/-- `Tokenizer::move_next`: one raw step forwards; `false` only at the
stream end. -/
def Tokenizer.move_next (t : Tokenizer) : Bool × Tokenizer :=
  match t.state with
  | .PreBlank => (true, { t with state := .Title })
  | .Title =>
    match t.node.props.children_display with
    | .None => (true, { t with state := .MetaContent 0 0 })
    | .Summary => (true, t.descend .MySummary .SummaryOpener)
    | .Full => (true, { t with state := .MetaContent 0 0 })
  | .MetaContent offset index =>
    let nco : Option (Nat × Childhood) := (t.node.children.get? index).map (fun c => (index, c))
    match nco with
    | some (nci, nc) =>
      if nc.offset ≤ offset then
        (true, t.descend (.Child nci) .PreBlank)
      else
        t.metaContentNextEmit offset index nco
    | none => t.metaContentNextEmit offset index none
  | .Hexstring extent index =>
    (true, { t with state := .MetaContent extent.end_ index })
  | .Hexdump extent index =>
    (true, { t with state := .MetaContent extent.end_ index })
  | .SummaryOpener =>
    if t.node.children.length = 0 then
      (true, { t with state := .SummaryCloser })
    else
      (true, { t with state := .SummaryLabel 0 })
  | .SummaryLabel i =>
    (true, t.descend (.ChildSummary i) .SummaryValueBegin)
  | .SummarySeparator i =>
    if t.node.children.length = i + 1 then
      (true, { t with state := .SummaryCloser })
    else
      (true, { t with state := .SummaryLabel (i + 1) })
  | .SummaryCloser => t.try_ascend .Next
  | .SummaryNewline => (true, { t with state := .PostBlank })
  | .SummaryValueBegin =>
    if t.node.children.length = 0 then
      (true, { t with state := .SummaryLeaf })
    else
      (true, { t with state := .SummaryOpener })
  | .SummaryLeaf => (true, { t with state := .SummaryValueEnd })
  | .SummaryValueEnd => t.try_ascend .Next
  | .PostBlank => (true, { t with state := .End })
  | .End => t.try_ascend .Next

/-- `Tokenizer::hit_bottom`. -/
def Tokenizer.hit_bottom (t : Tokenizer) : Bool :=
  match t.state with
  | .End => t.stack.isNone
  | _ => false

/-- `Tokenizer::hit_top`. -/
def Tokenizer.hit_top (t : Tokenizer) : Bool :=
  match t.state with
  | .PreBlank => t.stack.isNone
  | _ => false

/-- `Tokenizer::structure_path`. -/
def Tokenizer.structure_path (t : Tokenizer) : Path :=
  TokenizerStackEntry.build_path t.stack []

/- ---------------------------------------------------------------------
   logic/tokenizer.rs : fueled token-pulling loops

   The Rust loops `prev` / `next_preincrement` / `next_postincrement`
   are unbounded `while` loops; they are embedded with an explicit fuel
   parameter.  A result of `none` means the fuel ran out; `some (r, t)`
   is the loop's result `r` together with the final cursor.
--------------------------------------------------------------------- -/

/-- `Tokenizer::prev`, fueled. -/
def Tokenizer.prevF : Nat → Tokenizer → Option (Option Token × Tokenizer)
  | 0, _ => none
  | f + 1, t =>
    match t.move_prev with
    | (false, t') => some (none, t')
    | (true, t') =>
      match t'.gen_token with
      | .Ok tok => some (some tok, t')
      | .Skip => Tokenizer.prevF f t'
      | .Boundary => some (none, t')

/-- `Tokenizer::next_preincrement`, fueled. -/
def Tokenizer.nextPreF : Nat → Tokenizer → Option (Option Token × Tokenizer)
  | 0, _ => none
  | f + 1, t =>
    match t.move_next with
    | (false, t') => some (none, t')
    | (true, t') =>
      match t'.gen_token with
      | .Ok tok => some (some tok, t')
      | .Skip => Tokenizer.nextPreF f t'
      | .Boundary => some (none, t')

/-- `Tokenizer::next_postincrement`, fueled. -/
def Tokenizer.nextPostF : Nat → Tokenizer → Option (Option Token × Tokenizer)
  | 0, _ => none
  | f + 1, t =>
    let token := t.gen_token
    match t.move_next with
    | (false, t') => some (none, t')
    | (true, t') =>
      match token with
      | .Ok tok => some (some tok, t')
      | .Skip => Tokenizer.nextPostF f t'
      | .Boundary => some (none, t')

/-- Walk forward via repeated `next_postincrement` until it returns no
token, collecting the yielded tokens; `none` if the fuel ran out. -/
def Tokenizer.walkFwdF : Nat → Tokenizer → Option (List Token)
  | 0, _ => none
  | f + 1, t =>
    match t.nextPostF (f + 1) with
    | none => none
    | some (none, _) => some []
    | some (some tok, t') => (Tokenizer.walkFwdF f t').map (tok :: ·)

/-- Walk backward via repeated `prev` until it returns no token,
collecting the yielded tokens; `none` if the fuel ran out. -/
def Tokenizer.walkBwdF : Nat → Tokenizer → Option (List Token)
  | 0, _ => none
  | f + 1, t =>
    match t.prevF (f + 1) with
    | none => none
    | some (none, _) => some []
    | some (some tok, t') => (Tokenizer.walkBwdF f t').map (tok :: ·)

/- ---------------------------------------------------------------------
   model/document/change.rs and model/document.rs (modelled from the spec)
--------------------------------------------------------------------- -/

/-- Modelled from the spec: `change::ChangeType` (missing
`model/document/change.rs`).  Only the two change kinds handled by the
exhaustive match in `Tokenizer::port_change` are present (`AlterNode`,
`InsertNode`); spec section 9 records that the remaining kinds are not
handled by the original porting logic. -/
inductive ChangeType where
  | AlterNode (path : Path) (props : Properties)
  | InsertNode (path : Path) (index : Nat) (offset : Nat) (node : Node)

/-- Modelled from the spec: `change::Change`, one structural edit. -/
structure Change where
  ty : ChangeType

/-- Modelled from the spec: `document::Document` (missing
`model/document.rs`): an immutable snapshot of a root `Node` plus a
backward-linked version chain of (previous document, change) pairs. -/
inductive Document where
  | mk (root : Node) (previous : Option (Document × Change))

def Document.root : Document → Node
  | .mk r _ => r

def Document.previous : Document → Option (Document × Change)
  | .mk _ p => p

mutual
/-- Structural boolean equality on `Node` (the Rust side shares nodes by
`Arc` and compares them by value). -/
def Node.beq : Node → Node → Bool
  | .mk p1 s1 c1, .mk p2 s2 c2 =>
    decide (p1 = p2) && decide (s1 = s2) && ChildList.beq c1 c2

/-- Structural boolean equality on child lists. -/
def ChildList.beq : ChildList → ChildList → Bool
  | .nil, .nil => true
  | .cons o1 n1 r1, .cons o2 n2 r2 =>
    decide (o1 = o2) && Node.beq n1 n2 && ChildList.beq r1 r2
  | _, _ => false
end

/-- Structural boolean equality on `ChangeType`. -/
def ChangeType.beq : ChangeType → ChangeType → Bool
  | .AlterNode p1 pr1, .AlterNode p2 pr2 => decide (p1 = p2) && decide (pr1 = pr2)
  | .InsertNode p1 i1 o1 n1, .InsertNode p2 i2 o2 n2 =>
    decide (p1 = p2) && decide (i1 = i2) && decide (o1 = o2) && Node.beq n1 n2
  | _, _ => false

/-- Structural boolean equality on `Change`. -/
def Change.beq (a b : Change) : Bool := ChangeType.beq a.ty b.ty

/-- Structural boolean equality on `Document`. -/
def Document.beq : Document → Document → Bool
  | .mk r1 none, .mk r2 none => Node.beq r1 r2
  | .mk r1 (some (d1, c1)), .mk r2 (some (d2, c2)) =>
    Node.beq r1 r2 && Document.beq d1 d2 && Change.beq c1 c2
  | _, _ => false

/-- Modelled from the spec: `Document::is_outdated` (missing
`model/document.rs`) — true when `self` is a strict ancestor of `other`
in the version chain. -/
def Document.is_outdated (self other : Document) : Bool :=
  match other with
  | .mk _ none => false
  | .mk _ (some (prev, _)) => Document.beq self prev || Document.is_outdated self prev

/- ---------------------------------------------------------------------
   logic/tokenizer.rs : cursor rebasing ("porting")
--------------------------------------------------------------------- -/

/-- `Tokenizer::port_stack_entry`: rebuild one stack frame against the
new tree, bumping `Child`/`ChildSummary` indices hit by an `InsertNode`
at this frame's parent path. -/
def Tokenizer.port_stack_entry (old_tok : TokenizerStackEntry)
    (new_stack : Option TokenizerStackEntry) (current_path : Path)
    (new_node : Node) (change : Change) :
    TokenizerStackEntry × Node × Path :=
  let descent : TokenizerDescent :=
    match old_tok.descent with
    | .Child child_index =>
      (match change.ty with
       | .InsertNode path after_child _ _ =>
         if path = current_path ∧ child_index ≥ after_child then .Child (child_index + 1)
         else .Child child_index
       | _ => .Child child_index)
    | .ChildSummary child_index =>
      (match change.ty with
       | .InsertNode path after_child _ _ =>
         if path = current_path ∧ child_index ≥ after_child then .ChildSummary (child_index + 1)
         else .ChildSummary child_index
       | _ => .ChildSummary child_index)
    | .MySummary => .MySummary
  let new_path := descent.build_path current_path
  let node := (descent.childhood new_node).node
  (⟨new_stack, descent, old_tok.depth, new_node, old_tok.node_addr⟩, node, new_path)

/-- `Tokenizer::port_recurse`: recurse to the root end of the stack and
port each frame on the way back down. -/
def Tokenizer.port_recurse : TokenizerStackEntry → Node → Change →
    TokenizerStackEntry × Node × Path
  | .mk (some parent) d dep n a, new_root, change =>
    let (new_stack, new_node, path) := Tokenizer.port_recurse parent new_root change
    Tokenizer.port_stack_entry (.mk (some parent) d dep n a) (some new_stack) path new_node change
  | .mk none d dep n a, new_root, change =>
    Tokenizer.port_stack_entry (.mk none d dep n a) none [] new_root change

/-- The `(new_stack, node, new_path)` triple computed at the start of
`Tokenizer::port_change`. -/
def Tokenizer.port_stack (t : Tokenizer) (new_root : Node) (change : Change) :
    Option TokenizerStackEntry × Node × Path :=
  match t.stack with
  | some parent =>
    let (s, n, p) := Tokenizer.port_recurse parent new_root change
    (some s, n, p)
  | none => (none, new_root, [])

/-- The state normalization performed by `Tokenizer::port_change`:
`Hexdump`/`Hexstring` collapse back to the equivalent `MetaContent`. -/
def normalizeState : TokenizerState → TokenizerState
  | .Hexdump extent index => .MetaContent extent.begin index
  | .Hexstring extent index => .MetaContent extent.begin index
  | other => other

/-- The leaf-state fixups of `Tokenizer::port_change`, applied to the
normalized state given the ported path of the focused node. -/
def Tokenizer.port_change_leaf (state1 : TokenizerState) (new_path : Path)
    (change : Change) : TokenizerState :=
  match change.ty with
  | .AlterNode _ _ => state1
  | .InsertNode affected_path index offset new_node =>
    if affected_path = new_path then
      match state1 with
      | .MetaContent s_offset s_index =>
        if (Extent.sized offset new_node.size).includes s_offset then
          .MetaContent offset index
        else if offset + new_node.size < s_offset ∧ s_index ≥ index then
          .MetaContent s_offset (s_index + 1)
        else
          .MetaContent s_offset s_index
      | .SummaryLabel s_index =>
        if s_index > index then .SummaryLabel (s_index + 1) else .SummaryLabel s_index
      | .SummarySeparator s_index =>
        if s_index > index then .SummarySeparator (s_index + 1) else .SummarySeparator s_index
      | other => other
    else state1

/-- `Tokenizer::port_change`. -/
def Tokenizer.port_change (t : Tokenizer) (new_root : Node) (change : Change) : Tokenizer :=
  let snp := t.port_stack new_root change
  let new_state := Tokenizer.port_change_leaf (normalizeState t.state) snp.2.2 change
  { stack := snp.1,
    state := new_state,
    depth := t.depth,
    node := snp.2.1,
    node_addr := t.node_addr }

/-- `Tokenizer::port_doc`.  When the documents share no common ancestor
the source panics; the model returns the tokenizer unchanged on that
branch (unreachable for valid call sites). -/
def Tokenizer.port_doc (t : Tokenizer) (old_doc new_doc : Document) : Tokenizer :=
  if old_doc.is_outdated new_doc then
    match new_doc with
    | .mk root (some (prev_doc, change)) =>
      (Tokenizer.port_doc t old_doc prev_doc).port_change root change
    | .mk _ none => t
  else t

/- ---------------------------------------------------------------------
   Tree well-formedness (the structure invariant of `structure.rs`:
   children in non-decreasing offset order, non-overlapping, contained
   in the parent, and a positive Hexdump pitch as the Rust `Size`
   division would panic on zero)
--------------------------------------------------------------------- -/

/-- Children fit: starting from a low bound, each child begins at or
after the previous child's end and ends within the node's size. -/
def ChildList.fitB : ChildList → Nat → Nat → Bool
  | .nil, _, _ => true
  | .cons o n rest, lo, size =>
    decide (lo ≤ o) && decide (o + n.size ≤ size) && ChildList.fitB rest (o + n.size) size

mutual
/-- Well-formedness of a node: positive pitch, fitting children, and
recursively well-formed children. -/
def Node.wfB : Node → Bool
  | .mk props size children =>
    (match props.content_display with
     | .Hexdump p => decide (0 < p)
     | _ => true) &&
    ChildList.fitB children 0 size && ChildList.wfChildren children

/-- All nodes of a child list are well-formed. -/
def ChildList.wfChildren : ChildList → Bool
  | .nil => true
  | .cons _ n rest => Node.wfB n && ChildList.wfChildren rest
end

/-- The low bound of the content scan at child index `i`: the end of
child `i-1` (accumulated), or the start bound for index 0. -/
def lowFrom : List Childhood → Nat → Nat → Nat
  | _, lo, 0 => lo
  | [], lo, _ + 1 => lo
  | c :: rest, _, i + 1 => lowFrom rest c.end_ i

/-- The content low bound within node `n` at child index `i`. -/
def mcLow (n : Node) (i : Nat) : Nat := lowFrom n.children 0 i

/-- The content clamp limit within node `n` at child index `i`: the
next child's offset, or the node's size. -/
def mcHigh (n : Node) (i : Nat) : Nat :=
  match n.children.get? i with
  | some c => c.offset
  | none => n.size

/- ---------------------------------------------------------------------
   Reachability invariant of the tokenizer
--------------------------------------------------------------------- -/

/-- The descent of the top stack frame, if any. -/
def topDescent : Option TokenizerStackEntry → Option TokenizerDescent
  | none => none
  | some e => some e.descent

/-- States of the full (non-summary) per-node cycle may only sit above
no frame or a `Child` frame. -/
def fullFrame : Option TokenizerDescent → Prop
  | none => True
  | some (.Child _) => True
  | _ => False

/-- States of a node's own summary run sit above a `MySummary` or
`ChildSummary` frame. -/
def summaryFrame : Option TokenizerDescent → Prop
  | some .MySummary => True
  | some (.ChildSummary _) => True
  | _ => False

/-- `SummaryOpener`/`SummaryCloser` sit above a `MySummary` frame, or
above a `ChildSummary` frame when the node has children. -/
def summaryFrame0 (td : Option TokenizerDescent) (n : Node) : Prop :=
  match td with
  | some .MySummary => True
  | some (.ChildSummary _) => 0 < n.children.length
  | _ => False

/-- Validity of a descent out of node `n`. -/
def descentFits : TokenizerDescent → Node → Prop
  | .Child i, n => i < n.children.length ∧ n.props.children_display ≠ .Summary
  | .ChildSummary i, n => i < n.children.length
  | .MySummary, n => n.props.children_display = .Summary

/-- Which frame a descent may be pushed above: `Child`/`MySummary`
descents happen from full-cycle states, `ChildSummary` descents from
summary-run states. -/
def descentAllowed : TokenizerDescent → Option TokenizerDescent → Prop
  | .Child _, td => fullFrame td
  | .MySummary, td => fullFrame td
  | .ChildSummary _, td => summaryFrame td

/-- Consistency of a tokenizer stack: it reaches back to the root, each
frame records the cumulative depth and address, and each frame's
descent is valid for its node and allowed above its parent frame.  The
indices are the focused node, depth, and address implied by the
stack. -/
inductive StackOK (root : Node) : Option TokenizerStackEntry → Node → Nat → Nat → Prop where
  | top : StackOK root none root 0 0
  | frame (s : Option TokenizerStackEntry) (d : TokenizerDescent) (dep a : Nat) (n : Node) :
      StackOK root s n dep a →
      descentFits d n →
      descentAllowed d (topDescent s) →
      StackOK root (some ⟨s, d, dep, n, a⟩) (d.childhood n).node
        (dep + d.depth_change) (a + (d.childhood n).offset)

/-- The frame/bounds part of the state invariant (no scan-offset
arithmetic): which frames each state may sit above, index bounds, and
the display-mode side conditions. -/
def stateOK : TokenizerState → Node → Option TokenizerStackEntry → Prop
  | .PreBlank, _, s => fullFrame (topDescent s)
  | .Title, _, s => fullFrame (topDescent s)
  | .MetaContent _ i, n, s =>
    fullFrame (topDescent s) ∧ i ≤ n.children.length ∧ n.props.children_display ≠ .Summary
  | .Hexdump _ i, n, s =>
    fullFrame (topDescent s) ∧ i ≤ n.children.length ∧ n.props.children_display ≠ .Summary
  | .Hexstring _ i, n, s =>
    fullFrame (topDescent s) ∧ i ≤ n.children.length ∧ n.props.children_display ≠ .Summary
  | .SummaryOpener, n, s => summaryFrame0 (topDescent s) n
  | .SummaryLabel i, n, s => summaryFrame (topDescent s) ∧ i < n.children.length
  | .SummarySeparator i, n, s => summaryFrame (topDescent s) ∧ i < n.children.length
  | .SummaryCloser, n, s => summaryFrame0 (topDescent s) n
  | .SummaryNewline, n, s =>
    fullFrame (topDescent s) ∧ n.props.children_display = .Summary
  | .SummaryValueBegin, _, s => summaryFrame (topDescent s) ∧ (∃ i, topDescent s = some (.ChildSummary i))
  | .SummaryLeaf, n, s =>
    (∃ i, topDescent s = some (.ChildSummary i)) ∧ n.children.length = 0
  | .SummaryValueEnd, _, s => ∃ i, topDescent s = some (.ChildSummary i)
  | .PostBlank, _, s => fullFrame (topDescent s)
  | .End, _, s => fullFrame (topDescent s)

/-- The basic reachability invariant of a tokenizer. -/
structure Valid (root : Node) (t : Tokenizer) : Prop where
  stack_ok : StackOK root t.stack t.node t.depth t.node_addr
  state_ok : stateOK t.state t.node t.stack

/-- Tokenizers reachable from `at_beginning`/`at_end` by raw movement. -/
inductive Reachable (root : Node) : Tokenizer → Prop where
  | beginning : Reachable root (Tokenizer.at_beginning root)
  | ending : Reachable root (Tokenizer.at_end root)
  | next (t : Tokenizer) : Reachable root t → Reachable root (t.move_next).2
  | prev (t : Tokenizer) : Reachable root t → Reachable root (t.move_prev).2

/-- The number of `Child`/`ChildSummary` descents recorded on a stack
(`MySummary` contributes zero): the claimed value of `depth`. -/
def stackDescentCount : Option TokenizerStackEntry → Nat
  | none => 0
  | some (.mk s d _ _ _) => stackDescentCount s + d.depth_change

/-- The sum of the offsets of the childhoods selected by the descents
on a stack: the claimed value of `node_addr`. -/
def stackOffsetSum : Option TokenizerStackEntry → Nat
  | none => 0
  | some (.mk s d _ n _) => stackOffsetSum s + (d.childhood n).offset

/-- The node of the bottom-most frame of the stack (the current node if
the stack is empty): the claimed anchor of the stack. -/
def stackBottomNode (t : Tokenizer) : Node :=
  bottomAux t.stack t.node
where
  bottomAux : Option TokenizerStackEntry → Node → Node
  | none, n => n
  | some (.mk s _ _ n _), _ => bottomAux s n

/- ---------------------------------------------------------------------
   Claim-side helper definitions
--------------------------------------------------------------------- -/

/-- The clamp limit of a forward content step from `MetaContent(offset,
index)`: the next child's offset, or the node's own size when no next
child exists. -/
def metaNextLimit (t : Tokenizer) (index : Nat) : Nat :=
  match t.node.children.get? index with
  | some c => c.offset
  | none => t.node.size

/-- Re-resolution of a stack frame chain against a new root, keeping
every frame's descent, depth and node address and re-resolving only the
node references: the behaviour the spec asserts for porting across an
`AlterNode` change.  Mirrors `port_recurse` with all index fixups
removed. -/
def reresolveRec : TokenizerStackEntry → Node → TokenizerStackEntry × Node × Path
  | .mk (some parent) d dep _ a, new_root =>
    let (s, n, p) := reresolveRec parent new_root
    (⟨some s, d, dep, n, a⟩, (d.childhood n).node, d.build_path p)
  | .mk none d dep _ a, new_root =>
    (⟨none, d, dep, new_root, a⟩, (d.childhood new_root).node, d.build_path [])

/-- Re-resolution of a whole tokenizer stack against a new root. -/
def reresolveStack (t : Tokenizer) (new_root : Node) : Option TokenizerStackEntry × Node :=
  match t.stack with
  | some parent =>
    let (s, n, _) := reresolveRec parent new_root
    (some s, n)
  | none => (none, new_root)

/-- The scan-offset arithmetic invariant of the content states: offsets
sit between the previous child's end and the clamp limit, and are
either that low bound, the clamp limit, the node size, or a multiple of
the Hexdump pitch; Hexdump extents record exactly the forward-computed
segment from their begin offset; Hexstring extents span the whole gap. -/
def stateArith : TokenizerState → Node → Prop
  | .MetaContent o i, n =>
    mcLow n i ≤ o ∧ o ≤ mcHigh n i ∧ o ≤ n.size ∧
    (o = mcLow n i ∨ o = mcHigh n i ∨ o = n.size ∨
      ∃ p, n.props.content_display = .Hexdump p ∧ o % p = 0)
  | .Hexdump ext i, n =>
    ∃ p, n.props.content_display = .Hexdump p ∧
      mcLow n i ≤ ext.begin ∧ ext.begin < ext.end_ ∧
      ext.end_ = min (p * (ext.begin / p + 1)) (mcHigh n i) ∧
      (ext.begin = mcLow n i ∨ ext.begin % p = 0)
  | .Hexstring ext i, n =>
    n.props.content_display = .Hexstring ∧
    ext.begin = mcLow n i ∧ ext.end_ = mcHigh n i ∧ ext.begin < ext.end_
  | _, _ => True

/-- The full reachability invariant: basic invariant, well-formed root,
and the scan-offset arithmetic. -/
structure ValidX (root : Node) (t : Tokenizer) : Prop where
  wf : Node.wfB root = true
  basic : Valid root t
  arith : stateArith t.state t.node

/-- Iterate `move_next` a fixed number of times (used to exhibit
concrete reachable tokenizers). -/
def stepN : Nat → Tokenizer → Tokenizer
  | 0, t => t
  | n + 1, t => stepN n (t.move_next).2

/-- A childless node used in the porting counterexamples and witnesses. -/
def cNodePlain (nm : String) (sizeBytes : Nat) : Node :=
  .mk ⟨nm, .Major, .Full, .Hexdump (byteAddr 16), true⟩ (byteAddr sizeBytes) .nil

/-- `prevF` relates `x` to result `r` for some sufficient fuel: the
observable behaviour of one `prev()` pull. -/
def prevOkRel (x : Tokenizer) (r : Option Token × Tokenizer) : Prop :=
  ∃ f, Tokenizer.prevF f x = some r

/-- The childless 0x10-byte hexdump node of the C1 counterexample. -/
def c1Node : Node := cNodePlain "n" 0x10

/-- The C1 counterexample position: the `PostBlank` resting position
reached by one `prev()` from the end of `c1Node`'s stream. -/
def c1Tok : Tokenizer := ⟨none, .PostBlank, 0, c1Node, 0⟩

/-- The cursor state after `prev()` from `c1Tok`: resting on the
hexdump token. -/
def c1Mid : Tokenizer := ⟨none, .Hexdump (Extent.between 0 (byteAddr 0x10)) 0, 0, c1Node, 0⟩

/-- The cursor state after `next_postincrement()` from `c1Mid`. -/
def c1End : Tokenizer := ⟨none, .MetaContent (byteAddr 0x10) 0, 0, c1Node, 0⟩

/-- The hexdump token of the C1 counterexample stream. -/
def c1HexTok : Token :=
  ⟨.Hexdump (Extent.between 0 (byteAddr 0x10)), c1Node, 0, 1, true⟩

/-- A tokenizer resting on a `Hexdump` leaf state over a childless node,
used to refute the claim that porting across `AlterNode` leaves the leaf
state unchanged. -/
def c7Tok : Tokenizer :=
  { stack := none,
    state := .Hexdump (Extent.between 0 (byteAddr 0x10)) 0,
    depth := 0,
    node := cNodePlain "n" 0x10,
    node_addr := 0 }

/-- A pure properties change at the root. -/
def c7Change : Change := ⟨.AlterNode [] ⟨"renamed", .Major, .Full, .Hexstring, true⟩⟩

/-- The node inserted in the C5 witness scenario: 2 bytes. -/
def c5New : Node := cNodePlain "new" 2

/-- The new root of the C5 witness scenario: 0x10 bytes with `c5New`
inserted at index 0, offset 3. -/
def c5NewRoot : Node :=
  .mk ⟨"root", .Major, .Full, .Hexdump (byteAddr 16), true⟩ (byteAddr 0x10)
    (.cons (byteAddr 3) c5New .nil)

/-- The C5 witness tokenizer: focused on the old childless root, resting
on a `Hexdump` segment whose begin (scan offset) is byte 4, inside the
inserted node's extent [3, 5). -/
def c5Tok : Tokenizer :=
  { stack := none,
    state := .Hexdump (Extent.between (byteAddr 4) (byteAddr 0x10)) 0,
    depth := 0,
    node := cNodePlain "root" 0x10,
    node_addr := 0 }

/-- The C5 witness change: insert `c5New` under the root at index 0,
offset 3. -/
def c5Change : Change := ⟨.InsertNode [] 0 (byteAddr 3) c5New⟩

/- ---------------------------------------------------------------------
   The concrete scenario of `tests::hardcoded`
--------------------------------------------------------------------- -/

/-- Properties shared by both nodes of the hardcoded scenario: Major
title, Full children, Hexdump with 16-byte pitch. -/
def hcProps (nm : String) : Properties :=
  ⟨nm, .Major, .Full, .Hexdump (byteAddr 16), true⟩

/-- The child node of the hardcoded scenario: size 0x18. -/
def hcChild : Node := .mk (hcProps "child") (byteAddr 0x18) .nil

/-- The root node of the hardcoded scenario: size 0x70, one child at
offset 0x32. -/
def hcRoot : Node := .mk (hcProps "root") (byteAddr 0x70) (.cons (byteAddr 0x32) hcChild .nil)

/-- The expected token stream of the hardcoded scenario (token depths as
produced by `gen_token`, which renders hexdump lines one level deeper
than their owning node). -/
def hcExpected : List Token :=
  [ ⟨.Punctuation .Empty, hcRoot, 0, 0, true⟩,
    ⟨.Title, hcRoot, 0, 0, true⟩,
    ⟨.Hexdump (Extent.between (byteAddr 0x00) (byteAddr 0x10)), hcRoot, 0, 1, true⟩,
    ⟨.Hexdump (Extent.between (byteAddr 0x10) (byteAddr 0x20)), hcRoot, 0, 1, true⟩,
    ⟨.Hexdump (Extent.between (byteAddr 0x20) (byteAddr 0x30)), hcRoot, 0, 1, true⟩,
    ⟨.Hexdump (Extent.between (byteAddr 0x30) (byteAddr 0x32)), hcRoot, 0, 1, true⟩,
    ⟨.Punctuation .Empty, hcChild, byteAddr 0x32, 1, true⟩,
    ⟨.Title, hcChild, byteAddr 0x32, 1, true⟩,
    ⟨.Hexdump (Extent.between (byteAddr 0x00) (byteAddr 0x10)), hcChild, byteAddr 0x32, 2, true⟩,
    ⟨.Hexdump (Extent.between (byteAddr 0x10) (byteAddr 0x18)), hcChild, byteAddr 0x32, 2, true⟩,
    ⟨.Punctuation .Empty, hcChild, byteAddr 0x32, 1, true⟩,
    ⟨.Hexdump (Extent.between (byteAddr 0x4a) (byteAddr 0x50)), hcRoot, 0, 1, true⟩,
    ⟨.Hexdump (Extent.between (byteAddr 0x50) (byteAddr 0x60)), hcRoot, 0, 1, true⟩,
    ⟨.Hexdump (Extent.between (byteAddr 0x60) (byteAddr 0x70)), hcRoot, 0, 1, true⟩,
    ⟨.Punctuation .Empty, hcRoot, 0, 0, true⟩ ]

/-- C3: the forward walk from `at_beginning` over the hardcoded tree
(root of size 0x70 with Hexdump pitch 16, one child of size 0x18 at
offset 0x32) yields exactly: blank, title, hexdump extents
[0x00,0x10), [0x10,0x20), [0x20,0x30), [0x30,0x32) owned by root, the
child's blank, title, hexdump extents [0x0,0x10), [0x10,0x18), blank,
then root hexdump extents [0x4a,0x50), [0x50,0x60), [0x60,0x70), and a
final blank; and the backward walk from `at_end` yields exactly this
sequence reversed. -/
theorem C3_hardcoded_walk :
    Tokenizer.walkFwdF 100 (Tokenizer.at_beginning hcRoot) = some hcExpected ∧
    Tokenizer.walkBwdF 100 (Tokenizer.at_end hcRoot) = some hcExpected.reverse := by
  exact ⟨rfl, rfl⟩

/- ---------------------------------------------------------------------
   Soundness of the structural equalities; porting across zero changes
--------------------------------------------------------------------- -/

mutual
theorem node_beq_sound : ∀ a b : Node, Node.beq a b = true → a = b
  | .mk p1 s1 c1, .mk p2 s2 c2, h => by
    simp only [Node.beq, Bool.and_eq_true, decide_eq_true_eq] at h
    obtain ⟨⟨hp, hs⟩, hc⟩ := h
    have hc' := childList_beq_sound c1 c2 hc
    subst hp; subst hs; subst hc'; rfl

theorem childList_beq_sound : ∀ a b : ChildList, ChildList.beq a b = true → a = b
  | .nil, .nil, _ => rfl
  | .nil, .cons _ _ _, h => by simp [ChildList.beq] at h
  | .cons _ _ _, .nil, h => by simp [ChildList.beq] at h
  | .cons o1 n1 r1, .cons o2 n2 r2, h => by
    simp only [ChildList.beq, Bool.and_eq_true, decide_eq_true_eq] at h
    obtain ⟨⟨ho, hn⟩, hr⟩ := h
    have hn' := node_beq_sound n1 n2 hn
    have hr' := childList_beq_sound r1 r2 hr
    subst ho; subst hn'; subst hr'; rfl
end

theorem changeType_beq_sound : ∀ a b : ChangeType, ChangeType.beq a b = true → a = b
  | .AlterNode p1 pr1, .AlterNode p2 pr2, h => by
    simp only [ChangeType.beq, Bool.and_eq_true, decide_eq_true_eq] at h
    obtain ⟨hp, hpr⟩ := h
    subst hp; subst hpr; rfl
  | .AlterNode _ _, .InsertNode _ _ _ _, h => by simp [ChangeType.beq] at h
  | .InsertNode _ _ _ _, .AlterNode _ _, h => by simp [ChangeType.beq] at h
  | .InsertNode p1 i1 o1 n1, .InsertNode p2 i2 o2 n2, h => by
    simp only [ChangeType.beq, Bool.and_eq_true, decide_eq_true_eq] at h
    obtain ⟨⟨⟨hp, hi⟩, ho⟩, hn⟩ := h
    have hn' := node_beq_sound n1 n2 hn
    subst hp; subst hi; subst ho; subst hn'; rfl

theorem change_beq_sound (a b : Change) (h : Change.beq a b = true) : a = b := by
  obtain ⟨ta⟩ := a
  obtain ⟨tb⟩ := b
  have := changeType_beq_sound ta tb h
  subst this; rfl

theorem document_beq_sound : ∀ a b : Document, Document.beq a b = true → a = b
  | .mk r1 none, .mk r2 none, h => by
    have := node_beq_sound r1 r2 h
    subst this; rfl
  | .mk _ none, .mk _ (some _), h => by simp [Document.beq] at h
  | .mk _ (some _), .mk _ none, h => by simp [Document.beq] at h
  | .mk r1 (some (d1, c1)), .mk r2 (some (d2, c2)), h => by
    simp only [Document.beq, Bool.and_eq_true] at h
    obtain ⟨⟨hr, hd⟩, hc⟩ := h
    have hr' := node_beq_sound r1 r2 hr
    have hd' := document_beq_sound d1 d2 hd
    have hc' := change_beq_sound c1 c2 hc
    subst hr'; subst hd'; subst hc'; rfl

/-- A document is never a strict ancestor of a document of at most its
own size; in particular `is_outdated` is irreflexive. -/
theorem Document.is_outdated_false_of_le :
    ∀ (other self : Document), sizeOf other ≤ sizeOf self →
      Document.is_outdated self other = false
  | .mk _ none, _, _ => rfl
  | .mk r (some (prev, c)), self, h => by
    have hlt : sizeOf prev < sizeOf (Document.mk r (some (prev, c))) := by
      simp only [Document.mk.sizeOf_spec, Option.some.sizeOf_spec, Prod.mk.sizeOf_spec]
      omega
    have hple : sizeOf prev ≤ sizeOf self := le_of_lt (lt_of_lt_of_le hlt h)
    have hbeq : Document.beq self prev = false := by
      by_contra hne
      have htrue : Document.beq self prev = true := by
        cases hx : Document.beq self prev with
        | false => exact absurd hx hne
        | true => rfl
      have heq := document_beq_sound self prev htrue
      subst heq
      omega
    show (Document.beq self prev || Document.is_outdated self prev) = false
    rw [hbeq, Document.is_outdated_false_of_le prev self hple]
    rfl

theorem Document.is_outdated_self (d : Document) : Document.is_outdated d d = false :=
  Document.is_outdated_false_of_le d d (le_refl _)

/-- C8: porting a Tokenizer across a chain of zero changes — calling the
rebasing entry point with the old document equal to the new document —
leaves the Tokenizer byte-for-byte identical. -/
theorem C8_port_doc_noop (t : Tokenizer) (d : Document) :
    Tokenizer.port_doc t d d = t := by
  unfold Tokenizer.port_doc
  rw [Document.is_outdated_self]
  simp

/- ---------------------------------------------------------------------
   C4: one forward step from MetaContent
--------------------------------------------------------------------- -/

/-- Helper: `List.getD` agrees with a successful `List.get?`. -/
theorem getD_eq_of_getQ {α : Type} (l : List α) (i : Nat) (c d : α)
    (h : l.get? i = some c) : l.getD i d = c := by
  induction l generalizing i with
  | nil => simp at h
  | cons x xs ih =>
    cases i with
    | zero => simp_all [List.getD]
    | succ j => simp_all [List.getD]

/-- C4: a forward step from `MetaContent(offset, index)` (a) descends
into `children[index]` when it exists and begins at or before `offset`;
(b) otherwise, when `offset` is below the node's size, advances over one
content segment `[offset, end)` with `end` the next preferred-pitch
boundary clamped to the next child's offset / the node size (for a
pitched Hexdump), or that clamp limit itself when there is no pitch
(Hexstring segment, or a bare `MetaContent` advance for `None`); (c)
otherwise proceeds to `PostBlank`. -/
theorem C4_meta_content_step (t : Tokenizer) (offset : Nat) (index : Nat)
    (h : t.state = .MetaContent offset index) :
    (∀ c, t.node.children.get? index = some c → c.offset ≤ offset →
      t.move_next = (true, t.descend (.Child index) .PreBlank)) ∧
    ((∀ c, t.node.children.get? index = some c → offset < c.offset) →
      offset < t.node.size →
      t.move_next = (true, { t with state :=
        match t.node.props.content_display with
        | .None => .MetaContent (metaNextLimit t index) index
        | .Hexdump pitch =>
          .Hexdump (Extent.between offset
            (min (pitch * (offset / pitch + 1)) (metaNextLimit t index))) index
        | .Hexstring => .Hexstring (Extent.between offset (metaNextLimit t index)) index })) ∧
    ((∀ c, t.node.children.get? index = some c → offset < c.offset) →
      t.node.size ≤ offset →
      t.move_next = (true, { t with state := .PostBlank })) := by
  obtain ⟨stk, st, dep, nd, ad⟩ := t
  simp only at h
  subst h
  refine ⟨?_, ?_, ?_⟩
  · intro c hc hle
    simp only [Tokenizer.move_next, metaNextLimit, hc, Option.map_some']
    rw [if_pos hle]
  · intro hlt hsz
    cases hc : Node.children nd |>.get? index with
    | none =>
      simp only [Tokenizer.move_next, metaNextLimit, hc, Option.map_none',
        Tokenizer.metaContentNextEmit]
      rw [if_pos hsz]
      cases hcd : nd.props.content_display <;>
        simp [ContentDisplay.preferred_pitch, hcd]
    | some c =>
      have hco := hlt c hc
      have hne : ¬(c.offset ≤ offset) := by omega
      simp only [Tokenizer.move_next, metaNextLimit, hc, Option.map_some',
        Tokenizer.metaContentNextEmit]
      rw [if_neg hne, if_pos hsz]
      cases hcd : nd.props.content_display <;>
        simp [ContentDisplay.preferred_pitch, hcd]
  · intro hlt hsz
    have hsz' : Node.size nd ≤ offset := hsz
    have hnsz : ¬(offset < Node.size nd) := by omega
    cases hc : Node.children nd |>.get? index with
    | none =>
      simp only [Tokenizer.move_next, hc, Option.map_none', Tokenizer.metaContentNextEmit]
      rw [if_neg hnsz]
    | some c =>
      have hco := hlt c hc
      have hne : ¬(c.offset ≤ offset) := by omega
      simp only [Tokenizer.move_next, hc, Option.map_some', Tokenizer.metaContentNextEmit]
      rw [if_neg hne, if_neg hnsz]

/-- Witness for C4 on the hardcoded tree: at offset 0x32 with child
index 0 the cursor descends into the child; at offset 0 it emits the
hexdump segment [0, 0x10); at offset 0x70 past all children it proceeds
to PostBlank. -/
theorem C4_meta_content_step_witness :
    (Tokenizer.move_next
        { stack := none, state := .MetaContent (byteAddr 0x32) 0, depth := 0,
          node := hcRoot, node_addr := 0 } =
      (true, Tokenizer.descend
        { stack := none, state := .MetaContent (byteAddr 0x32) 0, depth := 0,
          node := hcRoot, node_addr := 0 } (.Child 0) .PreBlank)) ∧
    (Tokenizer.move_next
        { stack := none, state := .MetaContent 0 0, depth := 0,
          node := hcRoot, node_addr := 0 } =
      (true, { stack := none,
               state := .Hexdump (Extent.between 0 (byteAddr 0x10)) 0, depth := 0,
               node := hcRoot, node_addr := 0 })) ∧
    (Tokenizer.move_next
        { stack := none, state := .MetaContent (byteAddr 0x70) 1, depth := 0,
          node := hcRoot, node_addr := 0 } =
      (true, { stack := none, state := .PostBlank, depth := 0,
               node := hcRoot, node_addr := 0 })) := by
  refine ⟨?_, ?_, ?_⟩
  · exact (C4_meta_content_step _ (byteAddr 0x32) 0 rfl).1 ⟨hcChild, byteAddr 0x32⟩ rfl
      (by decide)
  · have hb := (C4_meta_content_step
      { stack := none, state := .MetaContent 0 0, depth := 0,
        node := hcRoot, node_addr := 0 } 0 0 rfl).2.1
      (by intro c hc; cases hc; decide) (by decide)
    simpa using hb
  · exact (C4_meta_content_step _ (byteAddr 0x70) 1 rfl).2.2
      (by intro c hc; simp [hcRoot, Node.children, ChildList.toList] at hc) (by decide)

/- ---------------------------------------------------------------------
   C6: InsertNode fixups on stack frames and leaf states
--------------------------------------------------------------------- -/

/-- C6: when porting across `InsertNode(path, idx, …)`: a stack frame
with descent `Child i` or `ChildSummary i` whose parent path equals the
insertion path has `i` bumped exactly when `idx ≤ i`, `MySummary`
frames are never touched; a normalized `MetaContent` leaf whose node is
the insertion target, with the new sibling entirely before the scan
offset and leaf child index ≥ the insertion index, gets its index
bumped; `SummaryLabel`/`SummarySeparator` leaves are bumped when their
index is strictly greater than the insertion index. -/
theorem C6_insert_node_fixups :
    (∀ (e : TokenizerStackEntry) (s : Option TokenizerStackEntry) (p : Path)
       (n nn : Node) (ip : Path) (idx : Nat) (off : Nat) (i : Nat),
       e.descent = .Child i →
       (Tokenizer.port_stack_entry e s p n ⟨.InsertNode ip idx off nn⟩).1.descent =
         .Child (if ip = p ∧ idx ≤ i then i + 1 else i)) ∧
    (∀ (e : TokenizerStackEntry) (s : Option TokenizerStackEntry) (p : Path)
       (n nn : Node) (ip : Path) (idx : Nat) (off : Nat) (i : Nat),
       e.descent = .ChildSummary i →
       (Tokenizer.port_stack_entry e s p n ⟨.InsertNode ip idx off nn⟩).1.descent =
         .ChildSummary (if ip = p ∧ idx ≤ i then i + 1 else i)) ∧
    (∀ (e : TokenizerStackEntry) (s : Option TokenizerStackEntry) (p : Path)
       (n : Node) (ch : Change),
       e.descent = .MySummary →
       (Tokenizer.port_stack_entry e s p n ch).1.descent = .MySummary) ∧
    (∀ (s_off : Nat) (s_idx : Nat) (ip : Path) (idx : Nat) (off : Nat) (nn : Node),
       off + nn.size < s_off → idx ≤ s_idx →
       Tokenizer.port_change_leaf (.MetaContent s_off s_idx) ip ⟨.InsertNode ip idx off nn⟩ =
         .MetaContent s_off (s_idx + 1)) ∧
    (∀ (s_idx : Nat) (ip : Path) (idx : Nat) (off : Nat) (nn : Node),
       idx < s_idx →
       Tokenizer.port_change_leaf (.SummaryLabel s_idx) ip ⟨.InsertNode ip idx off nn⟩ =
         .SummaryLabel (s_idx + 1)) ∧
    (∀ (s_idx : Nat) (ip : Path) (idx : Nat) (off : Nat) (nn : Node),
       idx < s_idx →
       Tokenizer.port_change_leaf (.SummarySeparator s_idx) ip ⟨.InsertNode ip idx off nn⟩ =
         .SummarySeparator (s_idx + 1)) := by
  refine ⟨?_, ?_, ?_, ?_, ?_, ?_⟩
  · intro e s p n nn ip idx off i hd
    obtain ⟨es, ed, edep, en, ea⟩ := e
    simp only [TokenizerStackEntry.descent] at hd
    subst hd
    simp only [Tokenizer.port_stack_entry, TokenizerStackEntry.descent]
    split <;> simp_all
  · intro e s p n nn ip idx off i hd
    obtain ⟨es, ed, edep, en, ea⟩ := e
    simp only [TokenizerStackEntry.descent] at hd
    subst hd
    simp only [Tokenizer.port_stack_entry, TokenizerStackEntry.descent]
    split <;> simp_all
  · intro e s p n ch hd
    obtain ⟨es, ed, edep, en, ea⟩ := e
    simp only [TokenizerStackEntry.descent] at hd
    subst hd
    simp only [Tokenizer.port_stack_entry, TokenizerStackEntry.descent]
  · intro s_off s_idx ip idx off nn hbefore hge
    have hninc : ¬((Extent.sized off nn.size).includes s_off = true) := by
      simp only [Extent.includes, Extent.sized, Bool.and_eq_true, decide_eq_true_eq]
      omega
    simp only [Tokenizer.port_change_leaf]
    rw [if_pos trivial, if_neg hninc, if_pos ⟨hbefore, hge⟩]
  · intro s_idx ip idx off nn hgt
    simp only [Tokenizer.port_change_leaf]
    rw [if_pos trivial, if_pos hgt]
  · intro s_idx ip idx off nn hgt
    simp only [Tokenizer.port_change_leaf]
    rw [if_pos trivial, if_pos hgt]

/-- Witness for C6 at concrete inputs: a `Child 2` frame at the
insertion path with insertion index 1 is bumped to `Child 3`; a
`MySummary` frame is untouched; a `MetaContent` leaf at byte 9 with a
1-byte sibling inserted at byte 2, index 1 ≤ 3, becomes index 4; a
`SummaryLabel 3` leaf with insertion index 1 becomes `SummaryLabel 4`. -/
theorem C6_insert_node_fixups_witness :
    ((Tokenizer.port_stack_entry ⟨none, .Child 2, 0, cNodePlain "x" 1, 0⟩ none []
        (cNodePlain "x" 1) ⟨.InsertNode [] 1 0 (cNodePlain "y" 1)⟩).1.descent = .Child 3) ∧
    ((Tokenizer.port_stack_entry ⟨none, .MySummary, 0, cNodePlain "x" 1, 0⟩ none []
        (cNodePlain "x" 1) ⟨.InsertNode [] 1 0 (cNodePlain "y" 1)⟩).1.descent = .MySummary) ∧
    (Tokenizer.port_change_leaf (.MetaContent (byteAddr 9) 3) []
        ⟨.InsertNode [] 1 (byteAddr 2) (cNodePlain "y" 1)⟩ = .MetaContent (byteAddr 9) 4) ∧
    (Tokenizer.port_change_leaf (.SummaryLabel 3) []
        ⟨.InsertNode [] 1 (byteAddr 2) (cNodePlain "y" 1)⟩ = .SummaryLabel 4) := by
  refine ⟨?_, ?_, ?_, ?_⟩
  · have hb := C6_insert_node_fixups.1 ⟨none, .Child 2, 0, cNodePlain "x" 1, 0⟩ none []
      (cNodePlain "x" 1) (cNodePlain "y" 1) [] 1 0 2 rfl
    simpa using hb
  · exact C6_insert_node_fixups.2.2.1 ⟨none, .MySummary, 0, cNodePlain "x" 1, 0⟩ none []
      (cNodePlain "x" 1) ⟨.InsertNode [] 1 0 (cNodePlain "y" 1)⟩ rfl
  · exact C6_insert_node_fixups.2.2.2.1 (byteAddr 9) 3 [] 1 (byteAddr 2) (cNodePlain "y" 1)
      (by decide) (by decide)
  · exact C6_insert_node_fixups.2.2.2.2.1 3 [] 1 (byteAddr 2) (cNodePlain "y" 1) (by decide)

/- ---------------------------------------------------------------------
   C7: porting across AlterNode (corrected)
--------------------------------------------------------------------- -/

/-- Counterexample to C7 as stated: a tokenizer resting on a `Hexdump`
leaf state, ported across a pure `AlterNode` change, does *not* keep its
leaf state — `port_change` first normalizes `Hexdump`/`Hexstring` back
to `MetaContent`. -/
theorem C7_alter_node_counterexample :
    (Tokenizer.port_change c7Tok (cNodePlain "n" 0x10) c7Change).state ≠ c7Tok.state := by
  decide

/-- Helper: porting a stack across an `AlterNode` change is exactly
re-resolution: descents, depths and node addresses are kept, node
references are looked up from the new root. -/
theorem port_recurse_alter (new_root : Node) (path : Path) (props : Properties) :
    ∀ e : TokenizerStackEntry,
      Tokenizer.port_recurse e new_root ⟨.AlterNode path props⟩ = reresolveRec e new_root
  | .mk (some parent) d dep n a => by
    have ih := port_recurse_alter new_root path props parent
    simp only [Tokenizer.port_recurse, ih, reresolveRec]
    cases d <;> rfl
  | .mk none d dep n a => by
    cases d <;> rfl

/-- C7 (amended): porting across an `AlterNode` change keeps the leaf
state up to normalization (`Hexdump`/`Hexstring` collapse to the
equivalent `MetaContent`; all other leaf states unchanged), keeps the
depth and node address, and keeps every stack frame's descent (child
index), depth and node address, re-resolving only node references from
the new tree. -/
theorem C7_alter_node_port (t : Tokenizer) (new_root : Node) (path : Path)
    (props : Properties) :
    Tokenizer.port_change t new_root ⟨.AlterNode path props⟩ =
      { stack := (reresolveStack t new_root).1,
        state := normalizeState t.state,
        depth := t.depth,
        node := (reresolveStack t new_root).2,
        node_addr := t.node_addr } := by
  obtain ⟨stk, st, dep, nd, ad⟩ := t
  cases stk with
  | none =>
    simp only [Tokenizer.port_change, Tokenizer.port_stack, reresolveStack]
    rfl
  | some parent =>
    simp only [Tokenizer.port_change, Tokenizer.port_stack, reresolveStack,
      port_recurse_alter new_root path props parent]
    rfl

/- ---------------------------------------------------------------------
   C5: InsertNode containing the scan offset
--------------------------------------------------------------------- -/

/-- C5: porting a tokenizer whose normalized leaf state is
`MetaContent(s, i)` across an `InsertNode` at the focused node's path
that inserts a sibling whose extent contains `s` rewrites the leaf to
the new sibling's offset and insertion index; consequently, as soon as
the new tree indeed carries the new sibling at that index and offset,
the very next forward step descends into the newly inserted sibling. -/
theorem C5_insert_descends (t : Tokenizer) (new_root : Node) (ip : Path) (idx : Nat)
    (off : Nat) (nn : Node) (s_off : Nat) (s_idx : Nat)
    (hstate : normalizeState t.state = .MetaContent s_off s_idx)
    (hpath : (t.port_stack new_root ⟨.InsertNode ip idx off nn⟩).2.2 = ip)
    (hincl : (Extent.sized off nn.size).includes s_off = true) :
    (t.port_change new_root ⟨.InsertNode ip idx off nn⟩).state = .MetaContent off idx ∧
    (∀ c, (t.port_change new_root ⟨.InsertNode ip idx off nn⟩).node.children.get? idx = some c →
      c.offset = off → c.node = nn →
      (t.port_change new_root ⟨.InsertNode ip idx off nn⟩).move_next =
        (true, (t.port_change new_root ⟨.InsertNode ip idx off nn⟩).descend (.Child idx) .PreBlank) ∧
      ((t.port_change new_root ⟨.InsertNode ip idx off nn⟩).descend (.Child idx) .PreBlank).node = nn) := by
  have hstateq : (t.port_change new_root ⟨.InsertNode ip idx off nn⟩).state =
      .MetaContent off idx := by
    simp only [Tokenizer.port_change, hstate, Tokenizer.port_change_leaf, hpath, if_pos rfl,
      hincl, if_pos]
  refine ⟨hstateq, ?_⟩
  intro c hc hoff hnode
  set t' := t.port_change new_root ⟨.InsertNode ip idx off nn⟩ with ht'
  obtain ⟨stk, st, dep, nd, ad⟩ := t'
  simp only at hstateq
  subst hstateq
  constructor
  · simp only [Tokenizer.move_next] at *
    simp only [hc, Option.map_some']
    rw [if_pos (le_of_eq hoff)]
  · simp only [Tokenizer.descend, TokenizerDescent.childhood]
    rw [getD_eq_of_getQ _ _ _ _ hc, hnode]

/- ---------------------------------------------------------------------
   Preservation of the basic invariant by raw movement
--------------------------------------------------------------------- -/

/-- Inversion of `StackOK` at a frame. -/
theorem StackOK.inv {root : Node} {s : Option TokenizerStackEntry} {d : TokenizerDescent}
    {dep a : Nat} {n n' : Node} {dep' a' : Nat}
    (h : StackOK root (some (.mk s d dep n a)) n' dep' a') :
    StackOK root s n dep a ∧ descentFits d n ∧ descentAllowed d (topDescent s) ∧
    n' = (d.childhood n).node ∧ dep' = dep + d.depth_change ∧
    a' = a + (d.childhood n).offset := by
  cases h with
  | frame _ _ _ _ _ hs hf ha => exact ⟨hs, hf, ha, rfl, rfl, rfl⟩

/-- A successful `List.get?` yields an in-bounds index. -/
theorem lt_of_getQ {α : Type} {l : List α} {i : Nat} {c : α}
    (h : l.get? i = some c) : i < l.length := by
  by_contra hn
  rw [List.get?_eq_none.mpr (by omega)] at h
  exact Option.noConfusion h

/-- `move_next` preserves the basic invariant. -/
theorem move_next_valid {root : Node} {t : Tokenizer} (h : Valid root t) :
    Valid root (t.move_next).2 := by
  obtain ⟨hstack, hstate⟩ := h
  obtain ⟨stk, st, dep, nd, ad⟩ := t
  simp only at hstack hstate
  cases st with
  | PreBlank =>
    exact ⟨hstack, hstate⟩
  | Title =>
    simp only [Tokenizer.move_next]
    cases hcd : nd.props.children_display with
    | None =>
      refine ⟨hstack, ?_⟩
      show stateOK (.MetaContent 0 0) nd stk
      exact ⟨hstate, by omega, by simp [hcd]⟩
    | Summary =>
      refine ⟨?_, ?_⟩
      · show StackOK root (some ⟨stk, .MySummary, dep, nd, ad⟩)
          ((TokenizerDescent.MySummary.childhood nd).node)
          (dep + TokenizerDescent.MySummary.depth_change)
          (ad + (TokenizerDescent.MySummary.childhood nd).offset)
        exact StackOK.frame _ _ _ _ _ hstack hcd hstate
      · show stateOK .SummaryOpener nd (some ⟨stk, .MySummary, dep, nd, ad⟩)
        show summaryFrame0 (some .MySummary) nd
        trivial
    | Full =>
      refine ⟨hstack, ?_⟩
      show stateOK (.MetaContent 0 0) nd stk
      exact ⟨hstate, by omega, by simp [hcd]⟩
  | MetaContent offset index =>
    obtain ⟨hframe, hidx, hdisp⟩ := hstate
    simp only [Tokenizer.move_next]
    cases hc : nd.children.get? index with
    | none =>
      simp only [Option.map_none']
      simp only [Tokenizer.metaContentNextEmit]
      split
      case isTrue =>
        refine ⟨hstack, ?_⟩
        cases hcdd : nd.props.content_display <;> simp only [hcdd] <;>
          exact ⟨hframe, hidx, hdisp⟩
      case isFalse =>
        exact ⟨hstack, hframe⟩
    | some c =>
      simp only [Option.map_some']
      split
      case isTrue hle =>
        have hlen : index < nd.children.length := lt_of_getQ hc
        refine ⟨?_, ?_⟩
        · show StackOK root (some ⟨stk, .Child index, dep, nd, ad⟩)
            (((TokenizerDescent.Child index).childhood nd).node)
            (dep + (TokenizerDescent.Child index).depth_change)
            (ad + ((TokenizerDescent.Child index).childhood nd).offset)
          exact StackOK.frame _ _ _ _ _ hstack ⟨hlen, hdisp⟩ hframe
        · show stateOK .PreBlank (((TokenizerDescent.Child index).childhood nd).node)
            (some ⟨stk, .Child index, dep, nd, ad⟩)
          show fullFrame (some (.Child index))
          trivial
      case isFalse hle =>
        simp only [Tokenizer.metaContentNextEmit]
        split
        case isTrue =>
          refine ⟨hstack, ?_⟩
          cases hcdd : nd.props.content_display <;> simp only [hcdd] <;>
            exact ⟨hframe, hidx, hdisp⟩
        case isFalse =>
          exact ⟨hstack, hframe⟩
  | Hexdump extent index =>
    obtain ⟨hframe, hidx, hdisp⟩ := hstate
    exact ⟨hstack, hframe, hidx, hdisp⟩
  | Hexstring extent index =>
    obtain ⟨hframe, hidx, hdisp⟩ := hstate
    exact ⟨hstack, hframe, hidx, hdisp⟩
  | SummaryOpener =>
    simp only [Tokenizer.move_next]
    split
    case isTrue hlen =>
      exact ⟨hstack, hstate⟩
    case isFalse hlen =>
      refine ⟨hstack, ?_⟩
      show stateOK (.SummaryLabel 0) nd stk
      refine ⟨?_, by omega⟩
      show summaryFrame (topDescent stk)
      simp only [stateOK, summaryFrame0, summaryFrame] at hstate ⊢
      cases htop : topDescent stk with
      | none => rw [htop] at hstate; exact hstate.elim
      | some d =>
        rw [htop] at hstate
        cases d with
        | Child i => exact hstate.elim
        | ChildSummary i => trivial
        | MySummary => trivial
  | SummaryLabel i =>
    obtain ⟨hframe, hidx⟩ := hstate
    simp only [Tokenizer.move_next]
    refine ⟨?_, ?_⟩
    · show StackOK root (some ⟨stk, .ChildSummary i, dep, nd, ad⟩)
        (((TokenizerDescent.ChildSummary i).childhood nd).node)
        (dep + (TokenizerDescent.ChildSummary i).depth_change)
        (ad + ((TokenizerDescent.ChildSummary i).childhood nd).offset)
      exact StackOK.frame _ _ _ _ _ hstack hidx hframe
    · show stateOK .SummaryValueBegin (((TokenizerDescent.ChildSummary i).childhood nd).node)
        (some ⟨stk, .ChildSummary i, dep, nd, ad⟩)
      exact ⟨trivial, i, rfl⟩
  | SummarySeparator i =>
    obtain ⟨hframe, hidx⟩ := hstate
    simp only [Tokenizer.move_next]
    split
    case isTrue hlen =>
      refine ⟨hstack, ?_⟩
      show stateOK .SummaryCloser nd stk
      show summaryFrame0 (topDescent stk) nd
      simp only [summaryFrame] at hframe
      cases htop : topDescent stk with
      | none => rw [htop] at hframe; exact hframe.elim
      | some d =>
        rw [htop] at hframe
        cases d with
        | Child j => exact hframe.elim
        | ChildSummary j => show 0 < nd.children.length; omega
        | MySummary => trivial
    case isFalse hlen =>
      refine ⟨hstack, ?_⟩
      show stateOK (.SummaryLabel (i + 1)) nd stk
      exact ⟨hframe, by omega⟩
  | SummaryCloser =>
    simp only [Tokenizer.move_next, Tokenizer.try_ascend]
    cases stk with
    | none =>
      simp only [stateOK, summaryFrame0, topDescent] at hstate
    | some e =>
      obtain ⟨es, ed, edep, en, ea⟩ := e
      obtain ⟨hs, hf, ha, hn, hd, haa⟩ := StackOK.inv hstack
      simp only [stateOK, summaryFrame0, topDescent, TokenizerStackEntry.descent] at hstate
      cases ed with
      | Child j => exact hstate.elim
      | ChildSummary j =>
        refine ⟨?_, ?_⟩
        · exact hs
        · show stateOK ((TokenizerDescent.ChildSummary j).after_state ⟨es, .ChildSummary j, edep, en, ea⟩) en es
          show stateOK (.SummarySeparator j) en es
          exact ⟨ha, hf⟩
      | MySummary =>
        refine ⟨hs, ?_⟩
        show stateOK (.SummaryNewline) en es
        exact ⟨ha, hf⟩
  | SummaryNewline =>
    exact ⟨hstack, hstate.1⟩
  | SummaryValueBegin =>
    obtain ⟨hframe, i, htop⟩ := hstate
    simp only [Tokenizer.move_next]
    split
    case isTrue hlen =>
      exact ⟨hstack, ⟨i, htop⟩, hlen⟩
    case isFalse hlen =>
      refine ⟨hstack, ?_⟩
      show stateOK .SummaryOpener nd stk
      show summaryFrame0 (topDescent stk) nd
      rw [htop]
      show 0 < nd.children.length
      omega
  | SummaryLeaf =>
    obtain ⟨⟨i, htop⟩, hlen⟩ := hstate
    exact ⟨hstack, i, htop⟩
  | SummaryValueEnd =>
    obtain ⟨i, htop⟩ := hstate
    simp only [Tokenizer.move_next, Tokenizer.try_ascend]
    cases stk with
    | none => simp [topDescent] at htop
    | some e =>
      obtain ⟨es, ed, edep, en, ea⟩ := e
      obtain ⟨hs, hf, ha, hn, hd, haa⟩ := StackOK.inv hstack
      simp only [topDescent, TokenizerStackEntry.descent] at htop
      cases htop
      refine ⟨hs, ?_⟩
      show stateOK (.SummarySeparator i) en es
      exact ⟨ha, hf⟩
  | PostBlank =>
    exact ⟨hstack, hstate⟩
  | End =>
    simp only [Tokenizer.move_next, Tokenizer.try_ascend]
    cases stk with
    | none => exact ⟨hstack, hstate⟩
    | some e =>
      obtain ⟨es, ed, edep, en, ea⟩ := e
      obtain ⟨hs, hf, ha, hn, hd, haa⟩ := StackOK.inv hstack
      simp only [stateOK, fullFrame, topDescent, TokenizerStackEntry.descent] at hstate
      cases ed with
      | Child j =>
        obtain ⟨hjlen, hjdisp⟩ := hf
        refine ⟨hs, ?_⟩
        show stateOK (.MetaContent (en.children.getD j defaultChildhood).end_ (j + 1)) en es
        exact ⟨ha, by omega, hjdisp⟩
      | ChildSummary j => exact hstate.elim
      | MySummary => exact hstate.elim

/-- `move_prev` preserves the basic invariant. -/
theorem move_prev_valid {root : Node} {t : Tokenizer} (h : Valid root t) :
    Valid root (t.move_prev).2 := by
  obtain ⟨hstack, hstate⟩ := h
  obtain ⟨stk, st, dep, nd, ad⟩ := t
  simp only at hstack hstate
  cases st with
  | PreBlank =>
    simp only [Tokenizer.move_prev, Tokenizer.try_ascend]
    cases stk with
    | none => exact ⟨hstack, hstate⟩
    | some e =>
      obtain ⟨es, ed, edep, en, ea⟩ := e
      obtain ⟨hs, hf, ha, hn, hd, haa⟩ := StackOK.inv hstack
      simp only [stateOK, fullFrame, topDescent, TokenizerStackEntry.descent] at hstate
      cases ed with
      | Child j =>
        obtain ⟨hjlen, hjdisp⟩ := hf
        refine ⟨hs, ?_⟩
        show stateOK (.MetaContent (en.children.getD j defaultChildhood).offset j) en es
        exact ⟨ha, by omega, hjdisp⟩
      | ChildSummary j => exact hstate.elim
      | MySummary => exact hstate.elim
  | Title =>
    exact ⟨hstack, hstate⟩
  | MetaContent offset index =>
    obtain ⟨hframe, hidx, hdisp⟩ := hstate
    simp only [Tokenizer.move_prev]
    cases index with
    | zero =>
      dsimp only
      simp only [Tokenizer.metaContentPrevEmit]
      split
      case isTrue =>
        refine ⟨hstack, ?_⟩
        cases hcdd : nd.props.content_display <;> simp only [hcdd] <;>
          exact ⟨hframe, hidx, hdisp⟩
      case isFalse =>
        exact ⟨hstack, hframe⟩
    | succ i =>
      dsimp only
      split
      case isTrue hle =>
        refine ⟨?_, ?_⟩
        · show StackOK root (some ⟨stk, .Child i, dep, nd, ad⟩)
            (((TokenizerDescent.Child i).childhood nd).node)
            (dep + (TokenizerDescent.Child i).depth_change)
            (ad + ((TokenizerDescent.Child i).childhood nd).offset)
          exact StackOK.frame _ _ _ _ _ hstack ⟨by omega, hdisp⟩ hframe
        · show stateOK .End (((TokenizerDescent.Child i).childhood nd).node)
            (some ⟨stk, .Child i, dep, nd, ad⟩)
          show fullFrame (some (.Child i))
          trivial
      case isFalse hle =>
        simp only [Tokenizer.metaContentPrevEmit]
        split
        case isTrue =>
          refine ⟨hstack, ?_⟩
          cases hcdd : nd.props.content_display <;> simp only [hcdd] <;>
            exact ⟨hframe, hidx, hdisp⟩
        case isFalse =>
          exact ⟨hstack, hframe⟩
  | Hexdump extent index =>
    obtain ⟨hframe, hidx, hdisp⟩ := hstate
    exact ⟨hstack, hframe, hidx, hdisp⟩
  | Hexstring extent index =>
    obtain ⟨hframe, hidx, hdisp⟩ := hstate
    exact ⟨hstack, hframe, hidx, hdisp⟩
  | SummaryOpener =>
    simp only [Tokenizer.move_prev, Tokenizer.try_ascend]
    cases stk with
    | none =>
      simp only [stateOK, summaryFrame0, topDescent] at hstate
    | some e =>
      obtain ⟨es, ed, edep, en, ea⟩ := e
      obtain ⟨hs, hf, ha, hn, hd, haa⟩ := StackOK.inv hstack
      simp only [stateOK, summaryFrame0, topDescent, TokenizerStackEntry.descent] at hstate
      cases ed with
      | Child j => exact hstate.elim
      | ChildSummary j =>
        refine ⟨hs, ?_⟩
        show stateOK (.SummaryLabel j) en es
        exact ⟨ha, hf⟩
      | MySummary =>
        refine ⟨hs, ?_⟩
        show stateOK .Title en es
        exact ha
  | SummaryLabel i =>
    obtain ⟨hframe, hidx⟩ := hstate
    simp only [Tokenizer.move_prev]
    split
    case isTrue hi0 =>
      refine ⟨hstack, ?_⟩
      show stateOK .SummaryOpener nd stk
      show summaryFrame0 (topDescent stk) nd
      simp only [summaryFrame] at hframe
      cases htop : topDescent stk with
      | none => rw [htop] at hframe; exact hframe.elim
      | some d =>
        rw [htop] at hframe
        cases d with
        | Child j => exact hframe.elim
        | ChildSummary j => show 0 < nd.children.length; omega
        | MySummary => trivial
    case isFalse hi0 =>
      refine ⟨hstack, ?_⟩
      show stateOK (.SummarySeparator (i - 1)) nd stk
      exact ⟨hframe, by omega⟩
  | SummarySeparator i =>
    obtain ⟨hframe, hidx⟩ := hstate
    simp only [Tokenizer.move_prev]
    refine ⟨?_, ?_⟩
    · show StackOK root (some ⟨stk, .ChildSummary i, dep, nd, ad⟩)
        (((TokenizerDescent.ChildSummary i).childhood nd).node)
        (dep + (TokenizerDescent.ChildSummary i).depth_change)
        (ad + ((TokenizerDescent.ChildSummary i).childhood nd).offset)
      exact StackOK.frame _ _ _ _ _ hstack hidx hframe
    · show stateOK .SummaryValueEnd (((TokenizerDescent.ChildSummary i).childhood nd).node)
        (some ⟨stk, .ChildSummary i, dep, nd, ad⟩)
      exact ⟨i, rfl⟩
  | SummaryCloser =>
    simp only [Tokenizer.move_prev]
    split
    case isTrue hlen =>
      exact ⟨hstack, hstate⟩
    case isFalse hlen =>
      refine ⟨hstack, ?_⟩
      show stateOK (.SummarySeparator (nd.children.length - 1)) nd stk
      simp only [stateOK, summaryFrame0, summaryFrame] at hstate ⊢
      refine ⟨?_, by omega⟩
      cases htop : topDescent stk with
      | none => rw [htop] at hstate; exact hstate.elim
      | some d =>
        rw [htop] at hstate
        cases d with
        | Child j => exact hstate.elim
        | ChildSummary j => trivial
        | MySummary => trivial
  | SummaryNewline =>
    obtain ⟨hframe, hdisp⟩ := hstate
    simp only [Tokenizer.move_prev]
    refine ⟨?_, ?_⟩
    · show StackOK root (some ⟨stk, .MySummary, dep, nd, ad⟩)
        ((TokenizerDescent.MySummary.childhood nd).node)
        (dep + TokenizerDescent.MySummary.depth_change)
        (ad + (TokenizerDescent.MySummary.childhood nd).offset)
      exact StackOK.frame _ _ _ _ _ hstack hdisp hframe
    · show stateOK .SummaryCloser nd (some ⟨stk, .MySummary, dep, nd, ad⟩)
      show summaryFrame0 (some .MySummary) nd
      trivial
  | SummaryValueBegin =>
    obtain ⟨hframe, i, htop⟩ := hstate
    simp only [Tokenizer.move_prev, Tokenizer.try_ascend]
    cases stk with
    | none => simp [topDescent] at htop
    | some e =>
      obtain ⟨es, ed, edep, en, ea⟩ := e
      obtain ⟨hs, hf, ha, hn, hd, haa⟩ := StackOK.inv hstack
      simp only [topDescent, TokenizerStackEntry.descent] at htop
      cases htop
      refine ⟨hs, ?_⟩
      show stateOK (.SummaryLabel i) en es
      exact ⟨ha, hf⟩
  | SummaryLeaf =>
    obtain ⟨⟨i, htop⟩, hlen⟩ := hstate
    refine ⟨hstack, ?_⟩
    show stateOK .SummaryValueBegin nd stk
    refine ⟨?_, i, htop⟩
    rw [htop]
    trivial
  | SummaryValueEnd =>
    obtain ⟨i, htop⟩ := hstate
    simp only [Tokenizer.move_prev]
    split
    case isTrue hlen =>
      exact ⟨hstack, ⟨i, htop⟩, hlen⟩
    case isFalse hlen =>
      refine ⟨hstack, ?_⟩
      show stateOK .SummaryCloser nd stk
      show summaryFrame0 (topDescent stk) nd
      rw [htop]
      show 0 < nd.children.length
      omega
  | PostBlank =>
    simp only [Tokenizer.move_prev]
    cases hcd : nd.props.children_display with
    | None =>
      refine ⟨hstack, ?_⟩
      show stateOK (.MetaContent nd.size nd.children.length) nd stk
      exact ⟨hstate, le_refl _, by simp [hcd]⟩
    | Summary =>
      refine ⟨hstack, ?_⟩
      show stateOK .SummaryNewline nd stk
      exact ⟨hstate, hcd⟩
    | Full =>
      refine ⟨hstack, ?_⟩
      show stateOK (.MetaContent nd.size nd.children.length) nd stk
      exact ⟨hstate, le_refl _, by simp [hcd]⟩
  | End =>
    exact ⟨hstack, hstate⟩

/-- The two anchors satisfy the basic invariant. -/
theorem at_beginning_valid (root : Node) : Valid root (Tokenizer.at_beginning root) :=
  ⟨StackOK.top, trivial⟩

theorem at_end_valid (root : Node) : Valid root (Tokenizer.at_end root) :=
  ⟨StackOK.top, trivial⟩

/-- Every reachable tokenizer satisfies the basic invariant. -/
theorem reachable_valid {root : Node} {t : Tokenizer} (hr : Reachable root t) :
    Valid root t := by
  induction hr with
  | beginning => exact at_beginning_valid root
  | ending => exact at_end_valid root
  | next t _ ih => exact move_next_valid ih
  | prev t _ ih => exact move_prev_valid ih

/-- A consistent stack's recorded depth, address and anchor agree with
the structurally computed ones. -/
theorem stackOK_measures {root : Node} {s : Option TokenizerStackEntry} {n : Node}
    {dep a : Nat} (h : StackOK root s n dep a) :
    stackBottomNode.bottomAux s n = root ∧ dep = stackDescentCount s ∧
      a = stackOffsetSum s := by
  induction h with
  | top =>
    refine ⟨?_, ?_, ?_⟩ <;>
      simp [stackBottomNode.bottomAux, stackDescentCount, stackOffsetSum]
  | frame s d dep a n hs hf ha ih =>
    obtain ⟨ih1, ih2, ih3⟩ := ih
    refine ⟨?_, ?_, ?_⟩
    · simp only [stackBottomNode.bottomAux]
      exact ih1
    · simp only [stackDescentCount]
      omega
    · simp only [stackOffsetSum]
      omega

/-- `move_prev` reports `false` exactly on a try-ascend state with an
empty stack (no invariant assumed). -/
theorem move_prev_fst (t : Tokenizer) :
    (t.move_prev).1 = false ↔ t.stack = none ∧
      (t.state = .PreBlank ∨ t.state = .SummaryOpener ∨ t.state = .SummaryValueBegin) := by
  obtain ⟨stk, st, dep, nd, ad⟩ := t
  cases st <;> cases stk <;>
    simp only [Tokenizer.move_prev, Tokenizer.try_ascend, Tokenizer.metaContentPrevEmit,
      Tokenizer.descend] <;>
    first
    | (simp
       done)
    | (try dsimp only
       repeat' split
       all_goals simp)

/-- `move_next` reports `false` exactly on a try-ascend state with an
empty stack (no invariant assumed). -/
theorem move_next_fst (t : Tokenizer) :
    (t.move_next).1 = false ↔ t.stack = none ∧
      (t.state = .SummaryCloser ∨ t.state = .SummaryValueEnd ∨ t.state = .End) := by
  obtain ⟨stk, st, dep, nd, ad⟩ := t
  cases st <;> cases stk <;>
    simp only [Tokenizer.move_next, Tokenizer.try_ascend, Tokenizer.metaContentNextEmit,
      Tokenizer.descend] <;>
    first
    | (simp
       done)
    | (try dsimp only
       repeat' split
       all_goals simp)

/-- `hit_top` is by definition the empty-stack `PreBlank` position. -/
theorem hit_top_iff (t : Tokenizer) :
    t.hit_top = true ↔ t.stack = none ∧ t.state = .PreBlank := by
  obtain ⟨stk, st, dep, nd, ad⟩ := t
  cases st <;> cases stk <;> simp [Tokenizer.hit_top]

/-- `hit_bottom` is by definition the empty-stack `End` position. -/
theorem hit_bottom_iff (t : Tokenizer) :
    t.hit_bottom = true ↔ t.stack = none ∧ t.state = .End := by
  obtain ⟨stk, st, dep, nd, ad⟩ := t
  cases st <;> cases stk <;> simp [Tokenizer.hit_bottom]

/-- Iterated `move_next` preserves reachability. -/
theorem reachable_stepN {root : Node} (n : Nat) {t : Tokenizer}
    (h : Reachable root t) : Reachable root (stepN n t) := by
  induction n generalizing t with
  | zero => exact h
  | succ m ih => exact ih (Reachable.next t h)

/-- C9: for every reachable tokenizer, `move_prev` returns `false`
exactly at the empty-stack `PreBlank` position (the true stream start),
`move_next` returns `false` exactly at the empty-stack `End` position
(the true stream end), and `hit_top`/`hit_bottom` hold exactly at those
two positions. -/
theorem C9_movement_extremes (root : Node) (t : Tokenizer) (hr : Reachable root t) :
    ((t.move_prev).1 = false ↔ t.stack = none ∧ t.state = .PreBlank) ∧
    ((t.move_next).1 = false ↔ t.stack = none ∧ t.state = .End) ∧
    (t.hit_top = true ↔ t.stack = none ∧ t.state = .PreBlank) ∧
    (t.hit_bottom = true ↔ t.stack = none ∧ t.state = .End) := by
  obtain ⟨hstack, hstate⟩ := reachable_valid hr
  refine ⟨?_, ?_, hit_top_iff t, hit_bottom_iff t⟩
  · constructor
    · intro hfalse
      obtain ⟨hs, hcase⟩ := (move_prev_fst t).mp hfalse
      refine ⟨hs, ?_⟩
      rcases hcase with h | h | h
      · exact h
      · rw [h, hs] at hstate
        simp [stateOK, summaryFrame0, topDescent] at hstate
      · rw [h, hs] at hstate
        simp [stateOK, summaryFrame, topDescent] at hstate
    · rintro ⟨hs, hst⟩
      exact (move_prev_fst t).mpr ⟨hs, Or.inl hst⟩
  · constructor
    · intro hfalse
      obtain ⟨hs, hcase⟩ := (move_next_fst t).mp hfalse
      refine ⟨hs, ?_⟩
      rcases hcase with h | h | h
      · rw [h, hs] at hstate
        simp [stateOK, summaryFrame0, topDescent] at hstate
      · rw [h, hs] at hstate
        simp [stateOK, topDescent] at hstate
      · exact h
    · rintro ⟨hs, hst⟩
      exact (move_next_fst t).mpr ⟨hs, Or.inr (Or.inr hst)⟩

/-- Witness for C9: at the very beginning of the hardcoded tree's
stream, `move_prev` reports the extreme and `hit_top` holds; eleven
forward steps in (inside the child), neither `move_prev` nor
`move_next` reports an extreme. -/
theorem C9_movement_extremes_witness :
    ((Tokenizer.at_beginning hcRoot).move_prev).1 = false ∧
    (Tokenizer.at_beginning hcRoot).hit_top = true ∧
    ((stepN 11 (Tokenizer.at_beginning hcRoot)).move_prev).1 = true ∧
    ((stepN 11 (Tokenizer.at_beginning hcRoot)).move_next).1 = true := by
  refine ⟨?_, ?_, ?_, ?_⟩
  · exact ((C9_movement_extremes hcRoot _ Reachable.beginning).1).mpr ⟨rfl, rfl⟩
  · exact ((C9_movement_extremes hcRoot _ Reachable.beginning).2.2.1).mpr ⟨rfl, rfl⟩
  · have h := (C9_movement_extremes hcRoot _
      (reachable_stepN 11 Reachable.beginning)).1
    rw [show (stepN 11 (Tokenizer.at_beginning hcRoot)) =
      { stack := some ⟨none, .Child 0, 0, hcRoot, 0⟩, state := .PreBlank, depth := 1,
        node := hcChild, node_addr := byteAddr 0x32 } from rfl] at h ⊢
    simpa using h
  · have h := (C9_movement_extremes hcRoot _
      (reachable_stepN 11 Reachable.beginning)).2.1
    rw [show (stepN 11 (Tokenizer.at_beginning hcRoot)) =
      { stack := some ⟨none, .Child 0, 0, hcRoot, 0⟩, state := .PreBlank, depth := 1,
        node := hcChild, node_addr := byteAddr 0x32 } from rfl] at h ⊢
    simpa using h

/-- C10: for every reachable tokenizer, the stack links back to the
root node, the depth equals the number of `Child`/`ChildSummary`
descents on the stack (`MySummary` contributes zero), and `node_addr`
equals the sum of the offsets of the childhoods selected by those
descents. -/
theorem C10_stack_invariants (root : Node) (t : Tokenizer) (hr : Reachable root t) :
    stackBottomNode t = root ∧ t.depth = stackDescentCount t.stack ∧
      t.node_addr = stackOffsetSum t.stack := by
  obtain ⟨hstack, _⟩ := reachable_valid hr
  have h := stackOK_measures hstack
  exact ⟨h.1, h.2.1, h.2.2⟩

/-- Witness for C10: eleven steps into the hardcoded tree's stream the
cursor is on the child at depth 1, address 0x32 bytes, with one `Child`
descent on the stack; the invariant equations hold there. -/
theorem C10_stack_invariants_witness :
    (stepN 11 (Tokenizer.at_beginning hcRoot)).depth = 1 ∧
    (stepN 11 (Tokenizer.at_beginning hcRoot)).node_addr = byteAddr 0x32 ∧
    stackBottomNode (stepN 11 (Tokenizer.at_beginning hcRoot)) = hcRoot ∧
    (stepN 11 (Tokenizer.at_beginning hcRoot)).depth =
      stackDescentCount (stepN 11 (Tokenizer.at_beginning hcRoot)).stack ∧
    (stepN 11 (Tokenizer.at_beginning hcRoot)).node_addr =
      stackOffsetSum (stepN 11 (Tokenizer.at_beginning hcRoot)).stack := by
  have h := C10_stack_invariants hcRoot _ (reachable_stepN 11 Reachable.beginning)
  exact ⟨rfl, rfl, h.1, h.2.1, h.2.2⟩

/-- Witness for C5: the concrete scenario `c5Tok` (scan offset byte 4 in
a Hexdump state) ported across `c5Change` (insert a 2-byte node at
offset 3, index 0) yields leaf state `MetaContent(3 bytes, 0)` and the
next forward step descends into the inserted node. -/
theorem C5_insert_descends_witness :
    (c5Tok.port_change c5NewRoot c5Change).state = .MetaContent (byteAddr 3) 0 ∧
    (c5Tok.port_change c5NewRoot c5Change).move_next =
      (true, (c5Tok.port_change c5NewRoot c5Change).descend (.Child 0) .PreBlank) ∧
    ((c5Tok.port_change c5NewRoot c5Change).descend (.Child 0) .PreBlank).node = c5New := by
  have h := C5_insert_descends c5Tok c5NewRoot [] 0 (byteAddr 3) c5New (byteAddr 4) 0
    rfl rfl (by decide)
  refine ⟨h.1, ?_, ?_⟩
  · exact (h.2 ⟨c5New, byteAddr 3⟩ rfl rfl rfl).1
  · exact (h.2 ⟨c5New, byteAddr 3⟩ rfl rfl rfl).2

/- ---------------------------------------------------------------------
   Well-formedness extraction lemmas and pitch arithmetic
--------------------------------------------------------------------- -/

/-- The low bound after a successful index is the previous child's end. -/
theorem lowFrom_succ {l : List Childhood} {i : Nat} (h : i < l.length)
    (lo : Nat) (d : Childhood) : lowFrom l lo (i + 1) = (l.getD i d).end_ := by
  induction l generalizing lo i with
  | nil => simp at h
  | cons c rest ih =>
    cases i with
    | zero => simp [lowFrom, List.getD]
    | succ j =>
      have hj : j < rest.length := by simpa using h
      show lowFrom rest c.end_ (j + 1) = _
      rw [ih hj c.end_]
      simp [List.getD]

/-- A successful `get?` at an in-bounds index yields `getD`. -/
theorem getQ_of_lt {α : Type} {l : List α} {i : Nat} (h : i < l.length) (d : α) :
    l.get? i = some (l.getD i d) := by
  induction l generalizing i with
  | nil => simp at h
  | cons x xs ih =>
    cases i with
    | zero => simp [List.getD]
    | succ j => simpa [List.getD] using ih (by simpa using h)

/-- Fitting children give the ordering facts: each scan low bound is
below the corresponding clamp limit, and every clamp value is within
the size. -/
theorem fit_spec : ∀ (cl : ChildList) (lo size : Nat), lo ≤ size →
    ChildList.fitB cl lo size = true → ∀ i,
      lowFrom cl.toList lo i ≤
        (match cl.toList.get? i with | some c => c.offset | none => size) ∧
      (match cl.toList.get? i with | some c => c.end_ | none => size) ≤ size
  | .nil, lo, size, hlo, _, i => by
    cases i <;> simp [ChildList.toList, lowFrom, hlo]
  | .cons o n rest, lo, size, hlo, hfit, i => by
    simp only [ChildList.fitB, Bool.and_eq_true, decide_eq_true_eq] at hfit
    obtain ⟨⟨h1, h2⟩, h3⟩ := hfit
    cases i with
    | zero => exact ⟨h1, h2⟩
    | succ j =>
      have := fit_spec rest (o + n.size) size (by omega) h3 j
      exact this

/-- Well-formedness gives a positive Hexdump pitch. -/
theorem wf_pitch_pos {n : Node} {p : Nat} (h : Node.wfB n = true)
    (hd : n.props.content_display = .Hexdump p) : 0 < p := by
  cases n with
  | mk props size children =>
    simp only [Node.wfB, Bool.and_eq_true] at h
    obtain ⟨⟨hmatch, _⟩, _⟩ := h
    simp only [Node.props] at hd
    rw [hd] at hmatch
    simpa using hmatch

/-- Well-formedness gives the ordering of the content scan bounds. -/
theorem wf_bounds {n : Node} (h : Node.wfB n = true) (i : Nat) :
    mcLow n i ≤ mcHigh n i ∧ mcHigh n i ≤ n.size := by
  cases n with
  | mk props size children =>
    simp only [Node.wfB, Bool.and_eq_true] at h
    obtain ⟨⟨_, hfit⟩, _⟩ := h
    have hsp := fit_spec children 0 size (Nat.zero_le _) hfit i
    cases hg : children.toList.get? i with
    | none =>
      have hh : mcHigh (Node.mk props size children) i = size := by
        simp only [mcHigh, Node.children, Node.size, hg]
      have h1 := hsp.1
      simp only [hg] at h1
      constructor
      · rw [hh]; exact h1
      · rw [hh]
        show size ≤ size
        exact le_refl _
    | some c =>
      have hh : mcHigh (Node.mk props size children) i = c.offset := by
        simp only [mcHigh, Node.children, hg]
      have h1 := hsp.1
      simp only [hg] at h1
      have h2 := hsp.2
      simp only [hg] at h2
      constructor
      · rw [hh]; exact h1
      · rw [hh]
        show c.offset ≤ size
        have hoe : c.offset ≤ c.end_ := Nat.le_add_right _ _
        omega

/-- Well-formedness descends to the children. -/
theorem wfChildren_mem : ∀ (cl : ChildList) (i : Nat) (c : Childhood),
    ChildList.wfChildren cl = true → cl.toList.get? i = some c →
      Node.wfB c.node = true
  | .nil, i, c, _, hg => by simp [ChildList.toList] at hg
  | .cons o n rest, i, c, hw, hg => by
    simp only [ChildList.wfChildren, Bool.and_eq_true] at hw
    cases i with
    | zero =>
      simp only [ChildList.toList, List.get?] at hg
      cases hg
      exact hw.1
    | succ j =>
      exact wfChildren_mem rest j c hw.2 (by simpa [ChildList.toList] using hg)

/-- Well-formedness of a node passes to any child fetched by index. -/
theorem wf_child {n : Node} {i : Nat} {c : Childhood} (h : Node.wfB n = true)
    (hg : n.children.get? i = some c) : Node.wfB c.node = true := by
  cases n with
  | mk props size children =>
    simp only [Node.wfB, Bool.and_eq_true] at h
    exact wfChildren_mem children i c h.2 hg

/-- Along a consistent stack from a well-formed root, every focused
node is well-formed. -/
theorem stackOK_wf {root : Node} (hwf : Node.wfB root = true) :
    ∀ {s : Option TokenizerStackEntry} {n : Node} {dep a : Nat},
      StackOK root s n dep a → Node.wfB n = true := by
  intro s n dep a h
  induction h with
  | top => exact hwf
  | frame s d dep a n hs hf ha ih =>
    cases d with
    | Child i =>
      obtain ⟨hi, _⟩ := hf
      exact wf_child ih (getQ_of_lt hi defaultChildhood)
    | ChildSummary i =>
      exact wf_child ih (getQ_of_lt hf defaultChildhood)
    | MySummary => exact ih

/-- `mcHigh` at or past the child count is the node size. -/
theorem mcHigh_len {n : Node} {i : Nat} (h : n.children.length ≤ i) :
    mcHigh n i = n.size := by
  have hg : n.children.get? i = none := List.get?_eq_none.mpr h
  simp only [mcHigh, hg]

/-- `mcHigh` below the child count is that child's offset. -/
theorem mcHigh_lt {n : Node} {i : Nat} (h : i < n.children.length) :
    mcHigh n i = (n.children.getD i defaultChildhood).offset := by
  have hg := getQ_of_lt h defaultChildhood
  simp only [mcHigh, hg]

/-- `mcLow` at a successor index is the previous child's end. -/
theorem mcLow_succ {n : Node} {i : Nat} (h : i < n.children.length) :
    mcLow n (i + 1) = (n.children.getD i defaultChildhood).end_ :=
  lowFrom_succ h 0 defaultChildhood

/-- A positive pitch pushes the next boundary strictly past any point. -/
theorem pitch_next_gt (p x : Nat) (hp : 0 < p) : x < p * (x / p + 1) := by
  have h1 := Nat.div_add_mod x p
  have h2 := Nat.mod_lt x hp
  rw [Nat.mul_succ]
  omega

/-- The pitch floor never exceeds the point. -/
theorem pitch_floor_le (p x : Nat) : p * (x / p) ≤ x := by
  rw [Nat.mul_comm]
  exact Nat.div_mul_le_self x p

/-- A value between consecutive multiples has the lower quotient. -/
theorem div_of_between {p k b : Nat} (hp : 0 < p) (h1 : p * k ≤ b)
    (h2 : b < p * (k + 1)) : b / p = k := by
  refine le_antisymm ?_ ?_
  · have := (Nat.div_lt_iff_lt_mul hp).mpr (by rw [Nat.mul_comm]; exact h2)
    omega
  · exact (Nat.le_div_iff_mul_le hp).mpr (by rw [Nat.mul_comm]; exact h1)

/-- One bit before a positive multiple of the pitch lands in the
previous pitch cell. -/
theorem pred_div_of_multiple {p k : Nat} (hp : 0 < p) (hk : 0 < k) :
    (p * k - 1) / p = k - 1 := by
  obtain ⟨j, rfl⟩ : ∃ j, k = j + 1 := ⟨k - 1, by omega⟩
  show (p * (j + 1) - 1) / p = j
  have h1 : p * (j + 1) = p * j + p := Nat.mul_succ p j
  refine div_of_between hp ?_ ?_ <;> omega

/-- The scan low bound at index zero is zero. -/
theorem lowFrom_zero (l : List Childhood) (lo : Nat) : lowFrom l lo 0 = lo := by
  cases l <;> rfl

/-- `mcLow` at index zero is zero. -/
theorem mcLow_zero (n : Node) : mcLow n 0 = 0 := lowFrom_zero n.children 0

/-- The backward content step recomputes exactly the segment whose end
is the current offset: the forward end computed from the backward-chosen
begin `max(pitch floor of (offset - 1), low bound)` is the offset
itself, whenever the offset is reachable (clamp limit or pitch
multiple). -/
theorem bwd_end_eq {p lw offset mcH : Nat} (hp : 0 < p) (hlt : lw < offset)
    (hhi : offset ≤ mcH) (hR : offset = mcH ∨ offset % p = 0) :
    min (p * ((max (p * ((offset - 1) / p)) lw) / p + 1)) mcH = offset := by
  rcases hR with hR | hR
  · subst hR
    refine min_eq_right ?_
    have h1 : p * ((offset - 1) / p) ≤ max (p * ((offset - 1) / p)) lw :=
      le_max_left _ _
    have h2 : (offset - 1) / p ≤ (max (p * ((offset - 1) / p)) lw) / p := by
      have h := Nat.div_le_div_right (c := p) h1
      rwa [Nat.mul_div_cancel_left _ hp] at h
    have h3 : offset ≤ p * ((offset - 1) / p + 1) := by
      have h := pitch_next_gt p (offset - 1) hp
      omega
    have h4 : p * ((offset - 1) / p + 1) ≤
        p * ((max (p * ((offset - 1) / p)) lw) / p + 1) :=
      Nat.mul_le_mul_left p (by omega)
    omega
  · obtain ⟨k, hk⟩ : ∃ k, offset = p * k :=
      ⟨offset / p, by
        rw [Nat.mul_comm]
        exact (Nat.div_mul_cancel (Nat.dvd_of_mod_eq_zero hR)).symm⟩
    have hk0 : 0 < k := by
      rcases Nat.eq_zero_or_pos k with h0 | h0
      · rw [h0, Nat.mul_zero] at hk; omega
      · exact h0
    have hpred : (offset - 1) / p = k - 1 := by
      rw [hk]; exact pred_div_of_multiple hp hk0
    have hpbe : p * ((offset - 1) / p) = p * (k - 1) := by rw [hpred]
    have hfloor : p * ((offset - 1) / p) ≤ offset - 1 := pitch_floor_le p (offset - 1)
    have hble1 : p * (k - 1) ≤ max (p * ((offset - 1) / p)) lw := by
      rw [← hpbe]; exact le_max_left _ _
    have hblt : max (p * ((offset - 1) / p)) lw < p * k := by
      rw [← hk]
      exact max_lt (by omega) hlt
    have hdiv : (max (p * ((offset - 1) / p)) lw) / p = k - 1 :=
      div_of_between hp hble1 (by rw [show k - 1 + 1 = k from by omega]; exact hblt)
    rw [hdiv, show k - 1 + 1 = k from by omega, ← hk]
    exact min_eq_left hhi

/-- `move_next` preserves the scan-offset arithmetic invariant. -/
theorem move_next_arith {root : Node} {t : Tokenizer} (hwf : Node.wfB root = true)
    (hv : Valid root t) (ha : stateArith t.state t.node) :
    stateArith (t.move_next).2.state (t.move_next).2.node := by
  obtain ⟨hstack, hstate⟩ := hv
  obtain ⟨stk, st, dep, nd, ad⟩ := t
  simp only at hstack hstate ha
  have hnwf : Node.wfB nd = true := stackOK_wf hwf hstack
  cases st with
  | PreBlank => show stateArith .Title nd; trivial
  | Title =>
    simp only [Tokenizer.move_next]
    cases hcd : nd.props.children_display with
    | None =>
      show stateArith (.MetaContent 0 0) nd
      exact ⟨le_of_eq (mcLow_zero nd), Nat.zero_le _, Nat.zero_le _,
        Or.inl (mcLow_zero nd).symm⟩
    | Summary =>
      show stateArith .SummaryOpener _
      trivial
    | Full =>
      show stateArith (.MetaContent 0 0) nd
      exact ⟨le_of_eq (mcLow_zero nd), Nat.zero_le _, Nat.zero_le _,
        Or.inl (mcLow_zero nd).symm⟩
  | MetaContent offset index =>
    obtain ⟨hlo, hhi, hsz, hR⟩ := ha
    obtain ⟨hframe, hidx, hdisp⟩ := hstate
    simp only [Tokenizer.move_next]
    cases hc : nd.children.get? index with
    | none =>
      have hlenle : nd.children.length ≤ index := by
        by_contra hx
        rw [getQ_of_lt (by omega) defaultChildhood] at hc
        exact Option.noConfusion hc
      have hhigh : mcHigh nd index = nd.size := mcHigh_len hlenle
      simp only [Option.map_none']
      simp only [Tokenizer.metaContentNextEmit]
      split
      case isTrue hofs =>
        cases hcdd : nd.props.content_display with
        | None =>
          show stateArith (.MetaContent nd.size index) nd
          refine ⟨by omega, by omega, Nat.le_refl _, Or.inr (Or.inr (Or.inl rfl))⟩
        | Hexdump p =>
          have hp := wf_pitch_pos hnwf hcdd
          show stateArith
            (.Hexdump (Extent.between offset (min (p * (offset / p + 1)) nd.size)) index) nd
          refine ⟨p, hcdd, hlo, ?_, ?_, ?_⟩
          · exact lt_min (pitch_next_gt p offset hp) hofs
          · show min (p * (offset / p + 1)) nd.size =
              min (p * (offset / p + 1)) (mcHigh nd index)
            rw [hhigh]
          · rcases hR with h | h | h | h
            · exact Or.inl h
            · omega
            · omega
            · obtain ⟨p', hd', hm'⟩ := h
              rw [hcdd] at hd'
              cases hd'
              exact Or.inr hm'
        | Hexstring =>
          show stateArith (.Hexstring (Extent.between offset nd.size) index) nd
          refine ⟨hcdd, ?_, ?_, ?_⟩
          · rcases hR with h | h | h | h
            · exact h
            · omega
            · omega
            · obtain ⟨p', hd', _⟩ := h
              rw [hcdd] at hd'
              exact ContentDisplay.noConfusion hd'
          · show nd.size = mcHigh nd index
            exact hhigh.symm
          · exact hofs
      case isFalse hofs =>
        show stateArith .PostBlank nd
        trivial
    | some c =>
      have hlen : index < nd.children.length := lt_of_getQ hc
      have hcd : nd.children.getD index defaultChildhood = c := getD_eq_of_getQ _ _ _ _ hc
      have hhigh : mcHigh nd index = c.offset := by rw [mcHigh_lt hlen, hcd]
      simp only [Option.map_some']
      split
      case isTrue hle =>
        show stateArith .PreBlank _
        trivial
      case isFalse hle =>
        have hstrict : offset < c.offset := by omega
        simp only [Tokenizer.metaContentNextEmit]
        split
        case isTrue hofs =>
          cases hcdd : nd.props.content_display with
          | None =>
            show stateArith (.MetaContent c.offset index) nd
            have hcsz := (wf_bounds hnwf index).2
            refine ⟨by omega, by omega, by omega, Or.inr (Or.inl hhigh.symm)⟩
          | Hexdump p =>
            have hp := wf_pitch_pos hnwf hcdd
            show stateArith
              (.Hexdump (Extent.between offset (min (p * (offset / p + 1)) c.offset)) index) nd
            refine ⟨p, hcdd, hlo, ?_, ?_, ?_⟩
            · exact lt_min (pitch_next_gt p offset hp) hstrict
            · show min (p * (offset / p + 1)) c.offset =
                min (p * (offset / p + 1)) (mcHigh nd index)
              rw [hhigh]
            · rcases hR with h | h | h | h
              · exact Or.inl h
              · omega
              · have hcsz := (wf_bounds hnwf index).2
                omega
              · obtain ⟨p', hd', hm'⟩ := h
                rw [hcdd] at hd'
                cases hd'
                exact Or.inr hm'
          | Hexstring =>
            show stateArith (.Hexstring (Extent.between offset c.offset) index) nd
            refine ⟨hcdd, ?_, hhigh.symm, hstrict⟩
            rcases hR with h | h | h | h
            · exact h
            · omega
            · have hcsz := (wf_bounds hnwf index).2
              omega
            · obtain ⟨p', hd', _⟩ := h
              rw [hcdd] at hd'
              exact ContentDisplay.noConfusion hd'
        case isFalse hofs =>
          show stateArith .PostBlank nd
          trivial
  | Hexdump extent index =>
    obtain ⟨p, hdisp, hlo, hlt, hend, hRb⟩ := ha
    show stateArith (.MetaContent extent.end_ index) nd
    have hbnd := wf_bounds hnwf index
    have hle1 : extent.end_ ≤ mcHigh nd index := by rw [hend]; exact min_le_right _ _
    refine ⟨by omega, hle1, by omega, ?_⟩
    rcases le_total (p * (extent.begin / p + 1)) (mcHigh nd index) with hmin | hmin
    · rw [min_eq_left hmin] at hend
      exact Or.inr (Or.inr (Or.inr ⟨p, hdisp, by rw [hend]; exact Nat.mul_mod_right _ _⟩))
    · rw [min_eq_right hmin] at hend
      exact Or.inr (Or.inl hend)
  | Hexstring extent index =>
    obtain ⟨hdisp, hb, he, hlt⟩ := ha
    show stateArith (.MetaContent extent.end_ index) nd
    have hbnd := wf_bounds hnwf index
    refine ⟨by omega, by omega, by omega, Or.inr (Or.inl he)⟩
  | SummaryOpener =>
    simp only [Tokenizer.move_next]
    split
    · show stateArith .SummaryCloser nd; trivial
    · show stateArith (.SummaryLabel 0) nd; trivial
  | SummaryLabel i =>
    simp only [Tokenizer.move_next]
    show stateArith .SummaryValueBegin _
    trivial
  | SummarySeparator i =>
    simp only [Tokenizer.move_next]
    split
    · show stateArith .SummaryCloser nd; trivial
    · show stateArith (.SummaryLabel (i + 1)) nd; trivial
  | SummaryCloser =>
    simp only [Tokenizer.move_next, Tokenizer.try_ascend]
    cases stk with
    | none => show stateArith .SummaryCloser nd; trivial
    | some e =>
      obtain ⟨es, ed, edep, en, ea⟩ := e
      simp only [stateOK, summaryFrame0, topDescent, TokenizerStackEntry.descent] at hstate
      cases ed with
      | Child j => exact hstate.elim
      | ChildSummary j => show stateArith (.SummarySeparator j) en; trivial
      | MySummary => show stateArith .SummaryNewline en; trivial
  | SummaryNewline => show stateArith .PostBlank nd; trivial
  | SummaryValueBegin =>
    simp only [Tokenizer.move_next]
    split
    · show stateArith .SummaryLeaf nd; trivial
    · show stateArith .SummaryOpener nd; trivial
  | SummaryLeaf => show stateArith .SummaryValueEnd nd; trivial
  | SummaryValueEnd =>
    simp only [Tokenizer.move_next, Tokenizer.try_ascend]
    cases stk with
    | none => show stateArith .SummaryValueEnd nd; trivial
    | some e =>
      obtain ⟨es, ed, edep, en, ea⟩ := e
      obtain ⟨i, htop⟩ := hstate
      simp only [topDescent, TokenizerStackEntry.descent] at htop
      cases htop
      show stateArith (.SummarySeparator i) en
      trivial
  | PostBlank => show stateArith .End nd; trivial
  | End =>
    simp only [Tokenizer.move_next, Tokenizer.try_ascend]
    cases stk with
    | none => show stateArith .End nd; trivial
    | some e =>
      obtain ⟨es, ed, edep, en, ea⟩ := e
      obtain ⟨hs, hf, hall, hn, hd, haa⟩ := StackOK.inv hstack
      have henwf : Node.wfB en = true := stackOK_wf hwf hs
      cases ed with
      | Child j =>
        obtain ⟨hjlen, _⟩ := hf
        show stateArith
          (.MetaContent (en.children.getD j defaultChildhood).end_ (j + 1)) en
        have hlow := mcLow_succ (n := en) hjlen
        have hbnd := wf_bounds henwf (j + 1)
        refine ⟨by omega, by omega, by omega, Or.inl hlow.symm⟩
      | ChildSummary j => show stateArith (.SummarySeparator j) en; trivial
      | MySummary => show stateArith .SummaryNewline en; trivial

/-- `move_prev` preserves the scan-offset arithmetic invariant. -/
theorem move_prev_arith {root : Node} {t : Tokenizer} (hwf : Node.wfB root = true)
    (hv : Valid root t) (ha : stateArith t.state t.node) :
    stateArith (t.move_prev).2.state (t.move_prev).2.node := by
  obtain ⟨hstack, hstate⟩ := hv
  obtain ⟨stk, st, dep, nd, ad⟩ := t
  simp only at hstack hstate ha
  have hnwf : Node.wfB nd = true := stackOK_wf hwf hstack
  cases st with
  | PreBlank =>
    simp only [Tokenizer.move_prev, Tokenizer.try_ascend]
    cases stk with
    | none => show stateArith .PreBlank nd; trivial
    | some e =>
      obtain ⟨es, ed, edep, en, ea⟩ := e
      obtain ⟨hs, hf, hall, hn, hd, haa⟩ := StackOK.inv hstack
      have henwf : Node.wfB en = true := stackOK_wf hwf hs
      simp only [stateOK, fullFrame, topDescent, TokenizerStackEntry.descent] at hstate
      cases ed with
      | Child j =>
        obtain ⟨hjlen, _⟩ := hf
        show stateArith
          (.MetaContent (en.children.getD j defaultChildhood).offset j) en
        have hhigh := mcHigh_lt (n := en) hjlen
        have hbnd := wf_bounds henwf j
        refine ⟨by omega, by omega, by omega, Or.inr (Or.inl hhigh.symm)⟩
      | ChildSummary j => exact hstate.elim
      | MySummary => exact hstate.elim
  | Title => show stateArith .PreBlank nd; trivial
  | MetaContent offset index =>
    obtain ⟨hlo, hhi, hsz, hR⟩ := ha
    obtain ⟨hframe, hidx, hdisp⟩ := hstate
    have hbnd := wf_bounds hnwf index
    simp only [Tokenizer.move_prev]
    cases index with
    | zero =>
      dsimp only
      have hlow0 := mcLow_zero nd
      simp only [Tokenizer.metaContentPrevEmit]
      split
      case isTrue hofs =>
        cases hcdd : nd.props.content_display with
        | None =>
          show stateArith (.MetaContent 0 0) nd
          exact ⟨le_of_eq hlow0, Nat.zero_le _, Nat.zero_le _, Or.inl hlow0.symm⟩
        | Hexdump p =>
          have hp := wf_pitch_pos hnwf hcdd
          have hRk : offset = mcHigh nd 0 ∨ offset % p = 0 := by
            rcases hR with h | h | h | h
            · omega
            · exact Or.inl h
            · left; omega
            · obtain ⟨p', hd', hm'⟩ := h
              rw [hcdd] at hd'
              cases hd'
              exact Or.inr hm'
          show stateArith (.Hexdump
            (Extent.between (max (p * ((offset - 1) / p)) 0) offset) 0) nd
          refine ⟨p, hcdd, ?_, ?_, ?_, ?_⟩
          · show mcLow nd 0 ≤ max (p * ((offset - 1) / p)) 0
            rw [mcLow_zero]
            exact Nat.zero_le _
          · show max (p * ((offset - 1) / p)) 0 < offset
            have hfl := pitch_floor_le p (offset - 1)
            have hmx : max (p * ((offset - 1) / p)) 0 = p * ((offset - 1) / p) :=
              Nat.max_zero _
            omega
          · show offset = min (p * ((max (p * ((offset - 1) / p)) 0) / p + 1)) (mcHigh nd 0)
            exact (bwd_end_eq hp (by omega) hhi hRk).symm
          · show max (p * ((offset - 1) / p)) 0 = mcLow nd 0 ∨
              (max (p * ((offset - 1) / p)) 0) % p = 0
            rw [mcLow_zero, Nat.max_zero]
            rcases Nat.eq_zero_or_pos (p * ((offset - 1) / p)) with hz | hz
            · exact Or.inl hz
            · exact Or.inr (Nat.mul_mod_right _ _)
        | Hexstring =>
          have hoeq : offset = mcHigh nd 0 := by
            rcases hR with h | h | h | h
            · omega
            · exact h
            · omega
            · obtain ⟨p', hd', _⟩ := h
              rw [hcdd] at hd'
              exact ContentDisplay.noConfusion hd'
          show stateArith (.Hexstring (Extent.between 0 offset) 0) nd
          exact ⟨hcdd, hlow0.symm, hoeq, hofs⟩
      case isFalse hofs =>
        show stateArith .Title nd
        trivial
    | succ i =>
      dsimp only
      have hilen : i < nd.children.length := by omega
      have hlows := mcLow_succ (n := nd) hilen
      split
      case isTrue hle =>
        show stateArith .End _
        trivial
      case isFalse hle =>
        have hstrictlo : mcLow nd (i + 1) < offset := by
          rw [hlows]; omega
        simp only [Tokenizer.metaContentPrevEmit]
        split
        case isTrue hofs =>
          cases hcdd : nd.props.content_display with
          | None =>
            show stateArith
              (.MetaContent (nd.children.getD i defaultChildhood).end_ (i + 1)) nd
            refine ⟨le_of_eq hlows, by omega, by omega, Or.inl hlows.symm⟩
          | Hexdump p =>
            have hp := wf_pitch_pos hnwf hcdd
            have hRk : offset = mcHigh nd (i + 1) ∨ offset % p = 0 := by
              rcases hR with h | h | h | h
              · omega
              · exact Or.inl h
              · left; omega
              · obtain ⟨p', hd', hm'⟩ := h
                rw [hcdd] at hd'
                cases hd'
                exact Or.inr hm'
            show stateArith (.Hexdump
              (Extent.between
                (max (p * ((offset - 1) / p)) (nd.children.getD i defaultChildhood).end_)
                offset) (i + 1)) nd
            refine ⟨p, hcdd, ?_, ?_, ?_, ?_⟩
            · show mcLow nd (i + 1) ≤
                max (p * ((offset - 1) / p)) (nd.children.getD i defaultChildhood).end_
              rw [hlows]
              exact le_max_right _ _
            · show max (p * ((offset - 1) / p))
                (nd.children.getD i defaultChildhood).end_ < offset
              have hfl := pitch_floor_le p (offset - 1)
              refine max_lt (by omega) (by omega)
            · show offset = min (p * ((max (p * ((offset - 1) / p))
                (nd.children.getD i defaultChildhood).end_) / p + 1)) (mcHigh nd (i + 1))
              rw [← hlows]
              exact (bwd_end_eq hp hstrictlo hhi hRk).symm
            · show max (p * ((offset - 1) / p))
                  (nd.children.getD i defaultChildhood).end_ = mcLow nd (i + 1) ∨
                (max (p * ((offset - 1) / p))
                  (nd.children.getD i defaultChildhood).end_) % p = 0
              rcases le_total (p * ((offset - 1) / p))
                ((nd.children.getD i defaultChildhood).end_) with hm | hm
              · left
                rw [hlows, max_eq_right hm]
              · right
                rw [max_eq_left hm]
                exact Nat.mul_mod_right _ _
          | Hexstring =>
            have hoeq : offset = mcHigh nd (i + 1) := by
              rcases hR with h | h | h | h
              · omega
              · exact h
              · omega
              · obtain ⟨p', hd', _⟩ := h
                rw [hcdd] at hd'
                exact ContentDisplay.noConfusion hd'
            show stateArith (.Hexstring
              (Extent.between (nd.children.getD i defaultChildhood).end_ offset) (i + 1)) nd
            refine ⟨hcdd, hlows.symm, hoeq, ?_⟩
            show (nd.children.getD i defaultChildhood).end_ < offset
            omega
        case isFalse hofs =>
          show stateArith .Title nd
          trivial
  | Hexdump extent index =>
    obtain ⟨p, hdisp, hlo, hlt, hend, hRb⟩ := ha
    show stateArith (.MetaContent extent.begin index) nd
    have hbnd := wf_bounds hnwf index
    have hle1 : extent.end_ ≤ mcHigh nd index := by rw [hend]; exact min_le_right _ _
    refine ⟨hlo, by omega, by omega, ?_⟩
    rcases hRb with h | h
    · exact Or.inl h
    · exact Or.inr (Or.inr (Or.inr ⟨p, hdisp, h⟩))
  | Hexstring extent index =>
    obtain ⟨hdisp, hb, he, hlt⟩ := ha
    show stateArith (.MetaContent extent.begin index) nd
    exact ⟨le_of_eq hb.symm, by
      have hbnd := wf_bounds hnwf index
      omega, by
      have hbnd := wf_bounds hnwf index
      omega, Or.inl hb⟩
  | SummaryOpener =>
    simp only [Tokenizer.move_prev, Tokenizer.try_ascend]
    cases stk with
    | none => show stateArith .SummaryOpener nd; trivial
    | some e =>
      obtain ⟨es, ed, edep, en, ea⟩ := e
      simp only [stateOK, summaryFrame0, topDescent, TokenizerStackEntry.descent] at hstate
      cases ed with
      | Child j => exact hstate.elim
      | ChildSummary j => show stateArith (.SummaryLabel j) en; trivial
      | MySummary => show stateArith .Title en; trivial
  | SummaryLabel i =>
    simp only [Tokenizer.move_prev]
    split
    · show stateArith .SummaryOpener nd; trivial
    · show stateArith (.SummarySeparator (i - 1)) nd; trivial
  | SummarySeparator i =>
    simp only [Tokenizer.move_prev]
    show stateArith .SummaryValueEnd _
    trivial
  | SummaryCloser =>
    simp only [Tokenizer.move_prev]
    split
    · show stateArith .SummaryOpener nd; trivial
    · show stateArith (.SummarySeparator (nd.children.length - 1)) nd; trivial
  | SummaryNewline =>
    simp only [Tokenizer.move_prev]
    show stateArith .SummaryCloser _
    trivial
  | SummaryValueBegin =>
    simp only [Tokenizer.move_prev, Tokenizer.try_ascend]
    cases stk with
    | none => show stateArith .SummaryValueBegin nd; trivial
    | some e =>
      obtain ⟨es, ed, edep, en, ea⟩ := e
      obtain ⟨hframe, i, htop⟩ := hstate
      simp only [topDescent, TokenizerStackEntry.descent] at htop
      cases htop
      show stateArith (.SummaryLabel i) en
      trivial
  | SummaryLeaf => show stateArith .SummaryValueBegin nd; trivial
  | SummaryValueEnd =>
    simp only [Tokenizer.move_prev]
    split
    · show stateArith .SummaryLeaf nd; trivial
    · show stateArith .SummaryCloser nd; trivial
  | PostBlank =>
    simp only [Tokenizer.move_prev]
    cases hcd : nd.props.children_display with
    | None =>
      show stateArith (.MetaContent nd.size nd.children.length) nd
      have hhigh := mcHigh_len (n := nd) (le_refl _)
      have hbnd := wf_bounds hnwf nd.children.length
      refine ⟨by omega, by omega, le_refl _, Or.inr (Or.inr (Or.inl rfl))⟩
    | Summary =>
      show stateArith .SummaryNewline nd
      trivial
    | Full =>
      show stateArith (.MetaContent nd.size nd.children.length) nd
      have hhigh := mcHigh_len (n := nd) (le_refl _)
      have hbnd := wf_bounds hnwf nd.children.length
      refine ⟨by omega, by omega, le_refl _, Or.inr (Or.inr (Or.inl rfl))⟩
  | End => show stateArith .PostBlank nd; trivial

/-- `ValidX` is preserved by `move_next`. -/
theorem move_next_validX {root : Node} {t : Tokenizer} (h : ValidX root t) :
    ValidX root (t.move_next).2 :=
  ⟨h.wf, move_next_valid h.basic, move_next_arith h.wf h.basic h.arith⟩

/-- `ValidX` is preserved by `move_prev`. -/
theorem move_prev_validX {root : Node} {t : Tokenizer} (h : ValidX root t) :
    ValidX root (t.move_prev).2 :=
  ⟨h.wf, move_prev_valid h.basic, move_prev_arith h.wf h.basic h.arith⟩

/-- The anchors satisfy the full invariant under a well-formed root. -/
theorem at_beginning_validX {root : Node} (hwf : Node.wfB root = true) :
    ValidX root (Tokenizer.at_beginning root) :=
  ⟨hwf, at_beginning_valid root, trivial⟩

theorem at_end_validX {root : Node} (hwf : Node.wfB root = true) :
    ValidX root (Tokenizer.at_end root) :=
  ⟨hwf, at_end_valid root, trivial⟩

/-- The backward step from the end of a reachable content segment
recomputes exactly the segment's begin. -/
theorem bwd_begin_eq {p lw b e : Nat} {mcH : Nat} (hp : 0 < p) (hlwb : lw ≤ b)
    (hbe : b < e) (hend : e = min (p * (b / p + 1)) mcH) (hR : b = lw ∨ b % p = 0) :
    max (p * ((e - 1) / p)) lw = b := by
  have hkey : (e - 1) / p = b / p := by
    rcases le_total (p * (b / p + 1)) mcH with hm | hm
    · rw [min_eq_left hm] at hend
      subst hend
      have h : (p * (b / p + 1) - 1) / p = (b / p + 1) - 1 :=
        pred_div_of_multiple hp (Nat.succ_pos _)
      simpa using h
    · rw [min_eq_right hm] at hend
      subst hend
      refine div_of_between hp ?_ ?_
      · have := pitch_floor_le p b
        omega
      · omega
  rw [hkey]
  rcases hR with hR | hR
  · subst hR
    have := pitch_floor_le p b
    exact max_eq_right (by omega)
  · have hcan : p * (b / p) = b := Nat.mul_div_cancel' (Nat.dvd_of_mod_eq_zero hR)
    rw [hcan]
    exact max_eq_left hlwb

/-- Exact one-step inversion gives the pull-level transport. -/
theorem prevOk_of_exact {t u : Tokenizer} (hinv : u.move_prev = (true, t)) :
    (∀ tok, t.gen_token = .Ok tok → prevOkRel u (some tok, t)) ∧
    (t.gen_token = .Skip → ∀ r, prevOkRel t r → prevOkRel u r) := by
  constructor
  · intro tok hg
    refine ⟨1, ?_⟩
    simp only [Tokenizer.prevF, hinv, hg]
  · rintro hg r ⟨f, hf⟩
    refine ⟨f + 1, ?_⟩
    simp only [Tokenizer.prevF, hinv, hg]
    exact hf

/-- Inversion through one interposed skip state gives the pull-level
transport. -/
theorem prevOk_of_two {t u z : Tokenizer} (h1 : u.move_prev = (true, z))
    (hz : z.gen_token = .Skip) (h2 : z.move_prev = (true, t)) :
    (∀ tok, t.gen_token = .Ok tok → prevOkRel u (some tok, t)) ∧
    (t.gen_token = .Skip → ∀ r, prevOkRel t r → prevOkRel u r) := by
  constructor
  · intro tok hg
    refine ⟨2, ?_⟩
    simp only [Tokenizer.prevF, h1, hz, h2, hg]
  · rintro hg r ⟨f, hf⟩
    refine ⟨f + 2, ?_⟩
    have : f + 2 = (f + 1) + 1 := rfl
    rw [this]
    simp only [Tokenizer.prevF, h1, hz, h2, hg]
    exact hf

/-- When the skipped source state steps back to the same place as its
successor, pull results transport unchanged. -/
theorem prevOk_of_same {t u : Tokenizer} (hsame : u.move_prev = t.move_prev)
    (hg : t.gen_token = .Skip) :
    (∀ tok, t.gen_token = .Ok tok → prevOkRel u (some tok, t)) ∧
    (t.gen_token = .Skip → ∀ r, prevOkRel t r → prevOkRel u r) := by
  constructor
  · intro tok hok
    rw [hg] at hok
    exact absurd hok (by simp)
  · rintro _ r ⟨f, hf⟩
    cases f with
    | zero => simp [Tokenizer.prevF] at hf
    | succ g =>
      refine ⟨g + 1, ?_⟩
      have hu : Tokenizer.prevF (g + 1) u = Tokenizer.prevF (g + 1) t := by
        simp only [Tokenizer.prevF, hsame]
      rw [hu]
      exact hf

/-- One-step inversion: every successful forward step of the cursor is
undone by the backward pull.  If the source state generates a token, the
pull from the successor returns exactly that token and source; if the
source state is a skip state, pull results transport unchanged across
the forward step. -/
theorem step_inversion {root : Node} {t : Tokenizer} (h : ValidX root t) :
    (∀ tok, t.gen_token = .Ok tok → prevOkRel (t.move_next).2 (some tok, t)) ∧
    (t.gen_token = .Skip → ∀ r, prevOkRel t r → prevOkRel (t.move_next).2 r) := by
  obtain ⟨hwf, ⟨hstack, hstate⟩, ha⟩ := h
  obtain ⟨stk, st, dep, nd, ad⟩ := t
  simp only at hstack hstate ha
  have hnwf : Node.wfB nd = true := stackOK_wf hwf hstack
  cases st with
  | PreBlank =>
    exact prevOk_of_exact rfl
  | Title =>
    refine prevOk_of_exact ?_
    simp only [Tokenizer.move_next]
    cases hcd : nd.props.children_display with
    | None => rfl
    | Summary => rfl
    | Full => rfl
  | MetaContent offset index =>
    obtain ⟨hframe, hidx, hdisp⟩ := hstate
    obtain ⟨halow, hahigh, hasize, haR⟩ := ha
    refine prevOk_of_exact ?_
    simp only [Tokenizer.move_next]
    cases hc : nd.children.get? index with
    | some c =>
      have hlen : index < nd.children.length := lt_of_getQ hc
      have hcd : nd.children.getD index defaultChildhood = c :=
        getD_eq_of_getQ _ _ _ _ hc
      have hhi : mcHigh nd index = c.offset := by
        rw [mcHigh_lt hlen, hcd]
      simp only [Option.map_some']
      by_cases hle : c.offset ≤ offset
      · rw [if_pos hle]
        have hoff : (nd.children.getD index defaultChildhood).offset = offset := by
          rw [hcd]; omega
        show (true, (⟨stk,
            .MetaContent (nd.children.getD index defaultChildhood).offset index,
            dep, nd, ad⟩ : Tokenizer)) =
          (true, (⟨stk, .MetaContent offset index, dep, nd, ad⟩ : Tokenizer))
        rw [hoff]
      · rw [if_neg hle]
        have hlt : offset < c.offset := by omega
        have hb := wf_bounds hnwf index
        have hofs : offset < nd.size := by omega
        simp only [Tokenizer.metaContentNextEmit]
        rw [if_pos hofs]
        cases hcdd : nd.props.content_display with
        | None =>
          have hmcl : offset = mcLow nd index := by
            rcases haR with hh | hh | hh | ⟨p, hp, _⟩
            · exact hh
            · omega
            · omega
            · rw [hcdd] at hp; exact ContentDisplay.noConfusion hp
          simp only [ContentDisplay.preferred_pitch, Option.map_none']
          cases index with
          | zero =>
            simp only [Tokenizer.move_prev, Tokenizer.metaContentPrevEmit]
            rw [if_pos (show 0 < c.offset by omega)]
            simp only [hcdd, ContentDisplay.preferred_pitch, Option.map_none']
            rw [show offset = 0 from by rw [hmcl]; exact mcLow_zero nd]
          | succ i =>
            have hi : i < nd.children.length := by omega
            have hoo : (nd.children.getD i defaultChildhood).end_ = offset := by
              rw [hmcl]; exact (mcLow_succ hi).symm
            simp only [Tokenizer.move_prev]
            rw [if_neg (show ¬(c.offset ≤ (nd.children.getD i defaultChildhood).end_) by omega)]
            simp only [Tokenizer.metaContentPrevEmit]
            rw [if_pos (show 0 < c.offset by omega)]
            simp only [hcdd, ContentDisplay.preferred_pitch, Option.map_none']
            rw [hoo]
        | Hexdump p =>
          simp only [ContentDisplay.preferred_pitch, Option.map_some',
            Tokenizer.move_prev, Extent.between]
        | Hexstring =>
          simp only [ContentDisplay.preferred_pitch, Option.map_none',
            Tokenizer.move_prev, Extent.between]
    | none =>
      have hlec : nd.children.length ≤ index := List.get?_eq_none.mp hc
      have hhs : mcHigh nd index = nd.size := mcHigh_len hlec
      simp only [Option.map_none']
      simp only [Tokenizer.metaContentNextEmit]
      by_cases hofs : offset < nd.size
      · rw [if_pos hofs]
        cases hcdd : nd.props.content_display with
        | None =>
          have hmcl : offset = mcLow nd index := by
            rcases haR with hh | hh | hh | ⟨p, hp, _⟩
            · exact hh
            · omega
            · omega
            · rw [hcdd] at hp; exact ContentDisplay.noConfusion hp
          simp only [ContentDisplay.preferred_pitch, Option.map_none']
          cases index with
          | zero =>
            simp only [Tokenizer.move_prev, Tokenizer.metaContentPrevEmit]
            rw [if_pos (show 0 < nd.size by omega)]
            simp only [hcdd, ContentDisplay.preferred_pitch, Option.map_none']
            rw [show offset = 0 from by rw [hmcl]; exact mcLow_zero nd]
          | succ i =>
            have hi : i < nd.children.length := by omega
            have hoo : (nd.children.getD i defaultChildhood).end_ = offset := by
              rw [hmcl]; exact (mcLow_succ hi).symm
            simp only [Tokenizer.move_prev]
            rw [if_neg (show ¬(nd.size ≤ (nd.children.getD i defaultChildhood).end_) by omega)]
            simp only [Tokenizer.metaContentPrevEmit]
            rw [if_pos (show 0 < nd.size by omega)]
            simp only [hcdd, ContentDisplay.preferred_pitch, Option.map_none']
            rw [hoo]
        | Hexdump p =>
          simp only [ContentDisplay.preferred_pitch, Option.map_some',
            Tokenizer.move_prev, Extent.between]
        | Hexstring =>
          simp only [ContentDisplay.preferred_pitch, Option.map_none',
            Tokenizer.move_prev, Extent.between]
      · rw [if_neg hofs]
        have hoeq : offset = nd.size := by omega
        have hieq : index = nd.children.length := by omega
        simp only [Tokenizer.move_prev]
        cases hcd2 : nd.props.children_display with
        | None => rw [hoeq, hieq]
        | Summary => exact absurd hcd2 hdisp
        | Full => rw [hoeq, hieq]
  | Hexdump ext index =>
    obtain ⟨p, hcdd, hbl, hbe, hend, hR⟩ := ha
    obtain ⟨hframe, hidx, hdisp⟩ := hstate
    have hp : 0 < p := wf_pitch_pos hnwf hcdd
    refine prevOk_of_exact ?_
    simp only [Tokenizer.move_next]
    cases index with
    | zero =>
      simp only [Tokenizer.move_prev, Tokenizer.metaContentPrevEmit]
      rw [if_pos (show 0 < ext.end_ by omega)]
      simp only [hcdd, ContentDisplay.preferred_pitch, Option.map_some']
      have hbeq : max (p * ((ext.end_ - 1) / p)) 0 = ext.begin := by
        have h0 : mcLow nd 0 = 0 := mcLow_zero nd
        refine bwd_begin_eq hp (by omega) hbe hend ?_
        rcases hR with hh | hh
        · left; omega
        · right; exact hh
      rw [hbeq]
      rfl
    | succ i =>
      have hi : i < nd.children.length := by omega
      have hml : mcLow nd (i + 1) = (nd.children.getD i defaultChildhood).end_ :=
        mcLow_succ hi
      simp only [Tokenizer.move_prev]
      rw [if_neg (show ¬(ext.end_ ≤ (nd.children.getD i defaultChildhood).end_) by omega)]
      simp only [Tokenizer.metaContentPrevEmit]
      rw [if_pos (show 0 < ext.end_ by omega)]
      simp only [hcdd, ContentDisplay.preferred_pitch, Option.map_some']
      have hbeq : max (p * ((ext.end_ - 1) / p)) (nd.children.getD i defaultChildhood).end_
          = ext.begin := by
        refine bwd_begin_eq hp (by omega) hbe hend ?_
        rcases hR with hh | hh
        · left; omega
        · right; exact hh
      rw [hbeq]
      rfl
  | Hexstring ext index =>
    obtain ⟨hcdd, hbeg, hendq, hbe⟩ := ha
    obtain ⟨hframe, hidx, hdisp⟩ := hstate
    refine prevOk_of_exact ?_
    simp only [Tokenizer.move_next]
    cases index with
    | zero =>
      simp only [Tokenizer.move_prev, Tokenizer.metaContentPrevEmit]
      rw [if_pos (show 0 < ext.end_ by omega)]
      simp only [hcdd, ContentDisplay.preferred_pitch, Option.map_none']
      have hext : Extent.between 0 ext.end_ = ext := by
        have h0 : ext.begin = 0 := by have := mcLow_zero nd; omega
        rw [← h0]
        rfl
      rw [hext]
    | succ i =>
      have hi : i < nd.children.length := by omega
      have hml : mcLow nd (i + 1) = (nd.children.getD i defaultChildhood).end_ :=
        mcLow_succ hi
      simp only [Tokenizer.move_prev]
      rw [if_neg (show ¬(ext.end_ ≤ (nd.children.getD i defaultChildhood).end_) by omega)]
      simp only [Tokenizer.metaContentPrevEmit]
      rw [if_pos (show 0 < ext.end_ by omega)]
      simp only [hcdd, ContentDisplay.preferred_pitch, Option.map_none']
      have hext : Extent.between (nd.children.getD i defaultChildhood).end_ ext.end_ = ext := by
        have hbq : (nd.children.getD i defaultChildhood).end_ = ext.begin := by omega
        rw [hbq]
        rfl
      rw [hext]
  | SummaryOpener =>
    refine prevOk_of_exact ?_
    simp only [Tokenizer.move_next]
    by_cases hlen : nd.children.length = 0
    · rw [if_pos hlen]
      simp only [Tokenizer.move_prev]
      rw [if_pos hlen]
    · rw [if_neg hlen]
      rfl
  | SummaryLabel i =>
    exact prevOk_of_exact rfl
  | SummarySeparator i =>
    obtain ⟨hframe, hilen⟩ := hstate
    refine prevOk_of_exact ?_
    simp only [Tokenizer.move_next]
    by_cases hlen : nd.children.length = i + 1
    · rw [if_pos hlen]
      simp only [Tokenizer.move_prev]
      rw [if_neg (show ¬(nd.children.length = 0) by omega)]
      rw [show nd.children.length - 1 = i by omega]
    · rw [if_neg hlen]
      simp only [Tokenizer.move_prev]
      rw [if_neg (show ¬(i + 1 = 0) by omega)]
      rfl
  | SummaryCloser =>
    cases stk with
    | none => exact hstate.elim
    | some e =>
      obtain ⟨es, ed, edep, en, ea⟩ := e
      obtain ⟨hs, hf, hal, hn, hd, haa⟩ := StackOK.inv hstack
      simp only [stateOK, summaryFrame0, topDescent, TokenizerStackEntry.descent] at hstate
      cases ed with
      | Child j => exact hstate.elim
      | ChildSummary j =>
        simp only [TokenizerDescent.childhood, TokenizerDescent.depth_change] at hn hd haa
        subst hn hd haa
        have hlen : 0 < ((en.children.getD j defaultChildhood).node).children.length := hstate
        refine prevOk_of_two
          (z := ⟨some ⟨es, .ChildSummary j, edep, en, ea⟩, .SummaryValueEnd,
            edep + 1, (en.children.getD j defaultChildhood).node,
            ea + (en.children.getD j defaultChildhood).offset⟩) rfl rfl ?_
        simp only [Tokenizer.move_prev]
        rw [if_neg (show ¬(((en.children.getD j
          defaultChildhood).node).children.length = 0) by omega)]
      | MySummary =>
        have hn' : nd = en := by simpa [TokenizerDescent.childhood] using hn
        have hd' : dep = edep := by simpa [TokenizerDescent.depth_change] using hd
        have ha' : ad = ea := by simpa [TokenizerDescent.childhood] using haa
        subst hn' hd' ha'
        exact prevOk_of_exact rfl
  | SummaryNewline =>
    obtain ⟨hframe, hdisp⟩ := hstate
    refine prevOk_of_exact ?_
    simp only [Tokenizer.move_next, Tokenizer.move_prev, hdisp]
  | SummaryValueBegin =>
    obtain ⟨hframe, i, htop⟩ := hstate
    simp only [Tokenizer.move_next]
    by_cases hlen : nd.children.length = 0
    · rw [if_pos hlen]
      exact prevOk_of_exact rfl
    · rw [if_neg hlen]
      cases stk with
      | none => simp [topDescent] at htop
      | some e => exact prevOk_of_same rfl rfl
  | SummaryLeaf =>
    obtain ⟨⟨i, htop⟩, hlen⟩ := hstate
    refine prevOk_of_exact ?_
    simp only [Tokenizer.move_next, Tokenizer.move_prev]
    rw [if_pos hlen]
  | SummaryValueEnd =>
    obtain ⟨i, htop⟩ := hstate
    cases stk with
    | none => simp [topDescent] at htop
    | some e =>
      obtain ⟨es, ed, edep, en, ea⟩ := e
      obtain ⟨hs, hf, hal, hn, hd, haa⟩ := StackOK.inv hstack
      simp only [topDescent, TokenizerStackEntry.descent] at htop
      cases ed with
      | Child j => simp at htop
      | MySummary => simp at htop
      | ChildSummary j =>
        simp only [TokenizerDescent.childhood, TokenizerDescent.depth_change] at hn hd haa
        subst hn hd haa
        exact prevOk_of_exact rfl
  | PostBlank =>
    exact prevOk_of_exact rfl
  | End =>
    cases stk with
    | none =>
      exact ⟨fun tok hok => TokenGenerationResult.noConfusion hok, fun _ r hr => hr⟩
    | some e =>
      obtain ⟨es, ed, edep, en, ea⟩ := e
      obtain ⟨hs, hf, hal, hn, hd, haa⟩ := StackOK.inv hstack
      simp only [stateOK, fullFrame, topDescent, TokenizerStackEntry.descent] at hstate
      cases ed with
      | ChildSummary j => exact hstate.elim
      | MySummary => exact hstate.elim
      | Child j =>
        simp only [TokenizerDescent.childhood, TokenizerDescent.depth_change] at hn hd haa
        subst hn hd haa
        refine prevOk_of_exact ?_
        simp only [Tokenizer.move_next, Tokenizer.try_ascend,
          TokenizerDescent.after_state, TokenizerStackEntry.descent,
          TokenizerStackEntry.stack, TokenizerStackEntry.depth,
          TokenizerStackEntry.node, TokenizerStackEntry.node_addr,
          Tokenizer.move_prev]
        rw [if_pos (le_refl (en.children.getD j defaultChildhood).end_)]
        rfl

/-- `gen_token` never reports a boundary in this embedding (no arm
produces it). -/
theorem gen_ne_boundary (t : Tokenizer) : t.gen_token ≠ .Boundary := by
  obtain ⟨stk, st, dep, nd, ad⟩ := t
  cases st <;> simp only [Tokenizer.gen_token] <;>
    first
    | (simp; done)
    | (split <;> simp)

/-- A stack-less tokenizer position sits at the root with zero depth and
address. -/
theorem stackOK_none {root n : Node} {dep a : Nat}
    (h : StackOK root none n dep a) : n = root ∧ dep = 0 ∧ a = 0 := by
  cases h
  exact ⟨rfl, rfl, rfl⟩

/-- One unfolding of `prevF` when the raw move fails. -/
theorem prevF_step_false {f : Nat} {t t' : Tokenizer}
    (hmv : t.move_prev = (false, t')) :
    Tokenizer.prevF (f + 1) t = some (none, t') := by
  simp only [Tokenizer.prevF, hmv]

/-- One unfolding of `prevF` when the raw move lands on a token. -/
theorem prevF_step_ok {f : Nat} {t t' : Tokenizer} {tok : Token}
    (hmv : t.move_prev = (true, t')) (hg : t'.gen_token = .Ok tok) :
    Tokenizer.prevF (f + 1) t = some (some tok, t') := by
  simp only [Tokenizer.prevF, hmv, hg]

/-- One unfolding of `prevF` when the raw move lands on a skip state. -/
theorem prevF_step_skip {f : Nat} {t t' : Tokenizer}
    (hmv : t.move_prev = (true, t')) (hg : t'.gen_token = .Skip) :
    Tokenizer.prevF (f + 1) t = Tokenizer.prevF f t' := by
  simp only [Tokenizer.prevF, hmv, hg]

/-- One unfolding of `nextPostF` when the raw move fails. -/
theorem nextPostF_step_false {f : Nat} {t t' : Tokenizer}
    (hmv : t.move_next = (false, t')) :
    Tokenizer.nextPostF (f + 1) t = some (none, t') := by
  simp only [Tokenizer.nextPostF, hmv]

/-- One unfolding of `nextPostF` when the source state has a token. -/
theorem nextPostF_step_ok {f : Nat} {t t' : Tokenizer} {tok : Token}
    (hmv : t.move_next = (true, t')) (hg : t.gen_token = .Ok tok) :
    Tokenizer.nextPostF (f + 1) t = some (some tok, t') := by
  simp only [Tokenizer.nextPostF, hmv, hg]

/-- One unfolding of `nextPostF` when the source state is a skip
state. -/
theorem nextPostF_step_skip {f : Nat} {t t' : Tokenizer}
    (hmv : t.move_next = (true, t')) (hg : t.gen_token = .Skip) :
    Tokenizer.nextPostF (f + 1) t = Tokenizer.nextPostF f t' := by
  simp only [Tokenizer.nextPostF, hmv, hg]

/-- One unfolding of `nextPreF` when the raw move fails. -/
theorem nextPreF_step_false {f : Nat} {t t' : Tokenizer}
    (hmv : t.move_next = (false, t')) :
    Tokenizer.nextPreF (f + 1) t = some (none, t') := by
  simp only [Tokenizer.nextPreF, hmv]

/-- One unfolding of `nextPreF` when the raw move lands on a token. -/
theorem nextPreF_step_ok {f : Nat} {t t' : Tokenizer} {tok : Token}
    (hmv : t.move_next = (true, t')) (hg : t'.gen_token = .Ok tok) :
    Tokenizer.nextPreF (f + 1) t = some (some tok, t') := by
  simp only [Tokenizer.nextPreF, hmv, hg]

/-- One unfolding of `nextPreF` when the raw move lands on a skip
state. -/
theorem nextPreF_step_skip {f : Nat} {t t' : Tokenizer}
    (hmv : t.move_next = (true, t')) (hg : t'.gen_token = .Skip) :
    Tokenizer.nextPreF (f + 1) t = Tokenizer.nextPreF f t' := by
  simp only [Tokenizer.nextPreF, hmv, hg]

/-- One unfolding of the backward walk when the pull runs out of
fuel. -/
theorem walkBwdF_eq_none_of {f : Nat} {t : Tokenizer}
    (hp : t.prevF (f + 1) = none) : Tokenizer.walkBwdF (f + 1) t = none := by
  simp only [Tokenizer.walkBwdF, hp]

/-- One unfolding of the backward walk when the pull yields no token. -/
theorem walkBwdF_eq_nil {f : Nat} {t t' : Tokenizer}
    (hp : t.prevF (f + 1) = some (none, t')) :
    Tokenizer.walkBwdF (f + 1) t = some [] := by
  simp only [Tokenizer.walkBwdF, hp]

/-- One unfolding of the backward walk when the pull yields a token. -/
theorem walkBwdF_eq_cons {f : Nat} {t t' : Tokenizer} {tok : Token}
    (hp : t.prevF (f + 1) = some (some tok, t')) :
    Tokenizer.walkBwdF (f + 1) t =
      (Tokenizer.walkBwdF f t').map (tok :: ·) := by
  simp only [Tokenizer.walkBwdF, hp]

/-- One unfolding of the forward walk when the pull runs out of fuel. -/
theorem walkFwdF_eq_none_of {f : Nat} {t : Tokenizer}
    (hp : t.nextPostF (f + 1) = none) : Tokenizer.walkFwdF (f + 1) t = none := by
  simp only [Tokenizer.walkFwdF, hp]

/-- One unfolding of the forward walk when the pull yields no token. -/
theorem walkFwdF_eq_nil {f : Nat} {t t' : Tokenizer}
    (hp : t.nextPostF (f + 1) = some (none, t')) :
    Tokenizer.walkFwdF (f + 1) t = some [] := by
  simp only [Tokenizer.walkFwdF, hp]

/-- One unfolding of the forward walk when the pull yields a token. -/
theorem walkFwdF_eq_cons {f : Nat} {t t' : Tokenizer} {tok : Token}
    (hp : t.nextPostF (f + 1) = some (some tok, t')) :
    Tokenizer.walkFwdF (f + 1) t =
      (Tokenizer.walkFwdF f t').map (tok :: ·) := by
  simp only [Tokenizer.walkFwdF, hp]

/-- More fuel never changes a successful `prev` pull. -/
theorem prevF_mono : ∀ {f g : Nat}, f ≤ g → ∀ {t : Tokenizer} {r},
    Tokenizer.prevF f t = some r → Tokenizer.prevF g t = some r := by
  intro f
  induction f with
  | zero => intro g _ t r h; simp [Tokenizer.prevF] at h
  | succ f ih =>
    intro g hfg t r h
    obtain ⟨g', rfl⟩ : ∃ g', g = g' + 1 := ⟨g - 1, by omega⟩
    rcases hmv : t.move_prev with ⟨b, t'⟩
    cases b with
    | false =>
      rw [prevF_step_false hmv] at h
      rw [prevF_step_false hmv]
      exact h
    | true =>
      cases hg : t'.gen_token with
      | Ok tok =>
        rw [prevF_step_ok hmv hg] at h
        rw [prevF_step_ok hmv hg]
        exact h
      | Skip =>
        rw [prevF_step_skip hmv hg] at h
        rw [prevF_step_skip hmv hg]
        exact ih (by omega) h
      | Boundary => exact absurd hg (gen_ne_boundary t')

/-- More fuel never changes a successful backward walk. -/
theorem walkBwdF_mono : ∀ {f g : Nat}, f ≤ g → ∀ {t : Tokenizer} {l},
    Tokenizer.walkBwdF f t = some l → Tokenizer.walkBwdF g t = some l := by
  intro f
  induction f with
  | zero => intro g _ t l h; simp [Tokenizer.walkBwdF] at h
  | succ f ih =>
    intro g hfg t l h
    obtain ⟨g', rfl⟩ : ∃ g', g = g' + 1 := ⟨g - 1, by omega⟩
    rcases hp : t.prevF (f + 1) with _ | ⟨otok, t'⟩
    · rw [walkBwdF_eq_none_of hp] at h
      exact Option.noConfusion h
    · have hp' : t.prevF (g' + 1) = some (otok, t') := prevF_mono (by omega) hp
      cases otok with
      | none =>
        rw [walkBwdF_eq_nil hp] at h
        rw [walkBwdF_eq_nil hp']
        exact h
      | some tok =>
        rw [walkBwdF_eq_cons hp] at h
        rw [walkBwdF_eq_cons hp']
        rcases hw : Tokenizer.walkBwdF f t' with _ | l'
        · rw [hw] at h
          exact Option.noConfusion h
        · rw [hw] at h
          rw [ih (g := g') (by omega) hw]
          exact h

/-- A successful `prev` pull lands on a valid position whose own state
generates exactly the returned token. -/
theorem prevF_ok {root : Node} : ∀ {f : Nat} {x t1 : Tokenizer} {tok : Token},
    ValidX root x → Tokenizer.prevF f x = some (some tok, t1) →
    ValidX root t1 ∧ t1.gen_token = .Ok tok := by
  intro f
  induction f with
  | zero => intro x t1 tok _ h; simp [Tokenizer.prevF] at h
  | succ f ih =>
    intro x t1 tok hx h
    rcases hmv : x.move_prev with ⟨b, t'⟩
    cases b with
    | false =>
      rw [prevF_step_false hmv] at h
      simp at h
    | true =>
      have hx' : ValidX root t' := by
        have hh := move_prev_validX hx
        rwa [hmv] at hh
      cases hg : t'.gen_token with
      | Ok tok0 =>
        rw [prevF_step_ok hmv hg] at h
        simp only [Option.some.injEq, Prod.mk.injEq] at h
        obtain ⟨rfl, rfl⟩ := h
        exact ⟨hx', hg⟩
      | Skip =>
        rw [prevF_step_skip hmv hg] at h
        exact ih hx' h
      | Boundary => exact absurd hg (gen_ne_boundary t')

/-- A `next_postincrement` pull that returns a token lands on a valid
position, the token was generated by some source position `w`, the pull
`prev` from the new position returns exactly `(token, w)`, and pull
results from the original position transport to `w`. -/
theorem nextPost_some {root : Node} : ∀ {f : Nat} {x x' : Tokenizer} {tok : Token},
    ValidX root x → Tokenizer.nextPostF f x = some (some tok, x') →
    ValidX root x' ∧ ∃ w : Tokenizer, w.gen_token = .Ok tok ∧
      prevOkRel x' (some tok, w) ∧ (∀ r, prevOkRel x r → prevOkRel w r) := by
  intro f
  induction f with
  | zero => intro x x' tok _ h; simp [Tokenizer.nextPostF] at h
  | succ f ih =>
    intro x x' tok hx h
    rcases hmv : x.move_next with ⟨b, u⟩
    cases b with
    | false =>
      rw [nextPostF_step_false hmv] at h
      simp at h
    | true =>
      have hu : ValidX root u := by
        have hh := move_next_validX hx
        rwa [hmv] at hh
      cases hg : x.gen_token with
      | Ok tok0 =>
        rw [nextPostF_step_ok hmv hg] at h
        simp only [Option.some.injEq, Prod.mk.injEq] at h
        obtain ⟨rfl, rfl⟩ := h
        refine ⟨hu, x, hg, ?_, fun r hr => hr⟩
        have hL := (step_inversion hx).1 tok0 hg
        rwa [hmv] at hL
      | Skip =>
        rw [nextPostF_step_skip hmv hg] at h
        obtain ⟨hxv, w, hw1, hw2, htr⟩ := ih hu h
        refine ⟨hxv, w, hw1, hw2, fun r hr => htr r ?_⟩
        have hL := (step_inversion hx).2 hg r hr
        rwa [hmv] at hL
      | Boundary => exact absurd hg (gen_ne_boundary x)

/-- A `next_postincrement` pull that returns no token has walked to the
very end of the stream, and pull results from the starting position
transport to that end position. -/
theorem nextPost_none {root : Node} : ∀ {f : Nat} {x t' : Tokenizer},
    ValidX root x → Tokenizer.nextPostF f x = some (none, t') →
    t' = Tokenizer.at_end root ∧ (∀ r, prevOkRel x r → prevOkRel t' r) := by
  intro f
  induction f with
  | zero => intro x t' _ h; simp [Tokenizer.nextPostF] at h
  | succ f ih =>
    intro x t' hx h
    rcases hmv : x.move_next with ⟨b, u⟩
    cases b with
    | false =>
      rw [nextPostF_step_false hmv] at h
      have hut : u = t' := by simpa using h
      have hfst : (x.move_next).1 = false := by rw [hmv]
      obtain ⟨hstk, hsts⟩ := (move_next_fst x).mp hfst
      have hso := hx.basic.state_ok
      rcases hsts with hst | hst | hst
      · rw [hst, hstk] at hso
        exact hso.elim
      · rw [hst, hstk] at hso
        obtain ⟨i, hti⟩ := hso
        simp [topDescent] at hti
      · have hs := hx.basic.stack_ok
        rw [hstk] at hs
        obtain ⟨hnr, hd0, ha0⟩ := stackOK_none hs
        have hxeq : x = Tokenizer.at_end root := by
          obtain ⟨xs, xst, xd, xn, xa⟩ := x
          simp only at hstk hst hnr hd0 ha0
          rw [hstk, hst, hnr, hd0, ha0]
          rfl
        have hux : u = x := by
          rw [hxeq] at hmv
          have hrfl : (Tokenizer.at_end root).move_next =
              (false, Tokenizer.at_end root) := rfl
          rw [hrfl] at hmv
          injection hmv with h1 h2
          rw [← h2, hxeq]
        constructor
        · rw [← hut, hux, hxeq]
        · intro r hr
          rw [← hut, hux]
          exact hr
    | true =>
      cases hg : x.gen_token with
      | Ok tok0 =>
        rw [nextPostF_step_ok hmv hg] at h
        simp at h
      | Skip =>
        rw [nextPostF_step_skip hmv hg] at h
        have hu : ValidX root u := by
          have hh := move_next_validX hx
          rwa [hmv] at hh
        obtain ⟨ht', htr⟩ := ih hu h
        refine ⟨ht', fun r hr => htr r ?_⟩
        have hL := (step_inversion hx).2 hg r hr
        rwa [hmv] at hL
      | Boundary => exact absurd hg (gen_ne_boundary x)

/-- Backward walks transport along pull-result equivalence. -/
theorem walkBwd_transfer {x w : Tokenizer}
    (htr : ∀ r, prevOkRel x r → prevOkRel w r) {g : Nat} {b : List Token}
    (h : Tokenizer.walkBwdF g x = some b) :
    ∃ g', Tokenizer.walkBwdF g' w = some b := by
  cases g with
  | zero => simp [Tokenizer.walkBwdF] at h
  | succ g =>
    rcases hp : x.prevF (g + 1) with _ | ⟨otok, t'⟩
    · rw [walkBwdF_eq_none_of hp] at h
      exact Option.noConfusion h
    · obtain ⟨g1, hp1⟩ := htr (otok, t') ⟨g + 1, hp⟩
      obtain ⟨g1', rfl⟩ : ∃ k, g1 = k + 1 := by
        cases g1 with
        | zero => simp [Tokenizer.prevF] at hp1
        | succ k => exact ⟨k, rfl⟩
      cases otok with
      | none =>
        rw [walkBwdF_eq_nil hp] at h
        exact ⟨g1' + 1, by rw [walkBwdF_eq_nil hp1]; exact h⟩
      | some tok =>
        rw [walkBwdF_eq_cons hp] at h
        rcases hw : Tokenizer.walkBwdF g t' with _ | b'
        · rw [hw] at h
          exact Option.noConfusion h
        · rw [hw] at h
          refine ⟨g1' + g + 1 + 1, ?_⟩
          have hp2 : w.prevF (g1' + g + 1 + 1) = some (some tok, t') :=
            prevF_mono (by omega) hp1
          rw [walkBwdF_eq_cons hp2]
          rw [walkBwdF_mono (g := g1' + g + 1) (by omega) hw]
          exact h

/-- The forward walk, transported token by token into a backward walk:
if the backward walk from `x` yields `b` and the forward walk from `x`
yields `m`, the backward walk from the end of the stream yields
`m.reverse ++ b`. -/
theorem fwd_to_bwd {root : Node} :
    ∀ (f : Nat) (x : Tokenizer) (m b : List Token), ValidX root x →
      (∃ g, Tokenizer.walkBwdF g x = some b) →
      Tokenizer.walkFwdF f x = some m →
      ∃ g, Tokenizer.walkBwdF g (Tokenizer.at_end root) = some (m.reverse ++ b) := by
  intro f
  induction f with
  | zero => intro x m b _ _ h; simp [Tokenizer.walkFwdF] at h
  | succ f ih =>
    intro x m b hx hb h
    rcases hp : x.nextPostF (f + 1) with _ | ⟨otok, x'⟩
    · rw [walkFwdF_eq_none_of hp] at h
      exact Option.noConfusion h
    · cases otok with
      | none =>
        rw [walkFwdF_eq_nil hp] at h
        have hm : m = [] := by simpa using h.symm
        subst hm
        obtain ⟨hend, htr⟩ := nextPost_none hx hp
        obtain ⟨g0, hg0⟩ := hb
        rw [hend] at htr
        obtain ⟨g', hg'⟩ := walkBwd_transfer htr hg0
        exact ⟨g', by simpa using hg'⟩
      | some tok =>
        rw [walkFwdF_eq_cons hp] at h
        rcases hw : Tokenizer.walkFwdF f x' with _ | m'
        · rw [hw] at h
          exact Option.noConfusion h
        · rw [hw] at h
          have hm : m = tok :: m' := by simpa using h.symm
          subst hm
          obtain ⟨hxv, w, hgw, hpx', htr⟩ := nextPost_some hx hp
          obtain ⟨g0, hg0⟩ := hb
          obtain ⟨g1, hg1⟩ := walkBwd_transfer htr hg0
          obtain ⟨g2, hp2⟩ := hpx'
          have hbt : ∃ g, Tokenizer.walkBwdF g x' = some (tok :: b) := by
            refine ⟨g2 + g1 + 1, ?_⟩
            have hp3 : x'.prevF (g2 + g1 + 1) = some (some tok, w) :=
              prevF_mono (by omega) hp2
            rw [walkBwdF_eq_cons hp3]
            rw [walkBwdF_mono (g := g2 + g1) (by omega) hg1]
            rfl
          obtain ⟨g3, hg3⟩ := ih x' m' (tok :: b) hxv hbt hw
          refine ⟨g3, ?_⟩
          have hle : (tok :: m').reverse ++ b = m'.reverse ++ (tok :: b) := by simp
          rw [hle]
          exact hg3

/-- Through the intermediate skip states of one `next_preincrement`
pull: once the original token's pull result is carried past the first
step, it is preserved to the final position. -/
theorem nextPre_prev {root : Node} : ∀ {g : Nat} {u t1 : Tokenizer} {tok1 : Token}
    {r : Option Token × Tokenizer}, ValidX root u → u.gen_token = .Skip →
    prevOkRel u r → Tokenizer.nextPreF g u = some (some tok1, t1) →
    prevOkRel t1 r := by
  intro g
  induction g with
  | zero => intro u t1 tok1 r _ _ _ h; simp [Tokenizer.nextPreF] at h
  | succ g ih =>
    intro u t1 tok1 r hu hsk hpr h
    rcases hmv : u.move_next with ⟨b, v⟩
    cases b with
    | false =>
      rw [nextPreF_step_false hmv] at h
      simp at h
    | true =>
      have hv : ValidX root v := by
        have hh := move_next_validX hu
        rwa [hmv] at hh
      have hpv : prevOkRel v r := by
        have hL := (step_inversion hu).2 hsk r hpr
        rwa [hmv] at hL
      cases hg : v.gen_token with
      | Ok tokv =>
        rw [nextPreF_step_ok hmv hg] at h
        simp only [Option.some.injEq, Prod.mk.injEq] at h
        obtain ⟨-, rfl⟩ := h
        exact hpv
      | Skip =>
        rw [nextPreF_step_skip hmv hg] at h
        exact ih hv hg hpv h
      | Boundary => exact absurd hg (gen_ne_boundary v)

/-- C1 (counterexample to the original claim): on the childless 0x10
hexdump node, the position `c1Tok` (the `PostBlank` resting position
one raw step before the stream end, hence not at a stream extreme) has
`prev()` yield the hexdump token landing at `c1Mid`, and
`next_postincrement()` from there yields the same token — but the
cursor lands at `c1End` (a `MetaContent` state), not at the original
`PostBlank` position, so both calls succeed yet the cursor is not
returned to its original position. -/
theorem C1_round_trip_counterexample :
    (Tokenizer.at_end c1Node).move_prev = (true, c1Tok) ∧
    Tokenizer.prevF 2 c1Tok = some (some c1HexTok, c1Mid) ∧
    Tokenizer.nextPostF 1 c1Mid = some (some c1HexTok, c1End) ∧
    c1End.state ≠ c1Tok.state := by
  refine ⟨rfl, rfl, rfl, ?_⟩
  intro hcon
  exact TokenizerState.noConfusion hcon

/-- C1 (amended): round trips are exact up to stream position.  For a
valid cursor `t`: (a) if `prev()` yields a token `tok` landing at `t1`,
then `next_postincrement()` from `t1` yields the same token `tok`, and
the cursor it lands on is stream-equivalent to the original — pulling
`prev()` from it returns exactly `(tok, t1)`, the same result as from
`t`; (b) if `t`'s own state generates token `tok0` and
`next_preincrement()` succeeds from `t`, then `prev()` from the
resulting position returns exactly `(tok0, t)`, restoring the cursor to
its original position. -/
theorem C1_round_trip {root : Node} {t : Tokenizer} (h : ValidX root t) :
    (∀ f tok t1, Tokenizer.prevF f t = some (some tok, t1) →
      ∃ t2, Tokenizer.nextPostF 1 t1 = some (some tok, t2) ∧
        prevOkRel t2 (some tok, t1) ∧ prevOkRel t (some tok, t1)) ∧
    (∀ g tok0 tok1 t1, t.gen_token = .Ok tok0 →
      Tokenizer.nextPreF g t = some (some tok1, t1) →
      prevOkRel t1 (some tok0, t)) := by
  constructor
  · intro f tok t1 hf
    obtain ⟨ht1, hgen⟩ := prevF_ok h hf
    rcases hmv : t1.move_next with ⟨b, t2⟩
    cases b with
    | false =>
      have hfst : (t1.move_next).1 = false := by rw [hmv]
      obtain ⟨hstk, hsts⟩ := (move_next_fst t1).mp hfst
      have hso := ht1.basic.state_ok
      rcases hsts with hst | hst | hst
      · rw [hst, hstk] at hso
        exact hso.elim
      · rw [hst, hstk] at hso
        obtain ⟨i, hti⟩ := hso
        simp [topDescent] at hti
      · have hsk : t1.gen_token = .Skip := by
          obtain ⟨s1, st1, d1, n1, a1⟩ := t1
          simp only at hst
          rw [hst]
          rfl
        rw [hsk] at hgen
        exact TokenGenerationResult.noConfusion hgen
    | true =>
      refine ⟨t2, ?_, ?_, ⟨f, hf⟩⟩
      · exact nextPostF_step_ok hmv hgen
      · have hL := (step_inversion ht1).1 tok hgen
        rwa [hmv] at hL
  · intro g tok0 tok1 t1 hok hnp
    cases g with
    | zero => simp [Tokenizer.nextPreF] at hnp
    | succ g =>
      rcases hmv : t.move_next with ⟨b, u⟩
      cases b with
      | false =>
        rw [nextPreF_step_false hmv] at hnp
        simp at hnp
      | true =>
        have hu : ValidX root u := by
          have hh := move_next_validX h
          rwa [hmv] at hh
        have hpu : prevOkRel u (some tok0, t) := by
          have hL := (step_inversion h).1 tok0 hok
          rwa [hmv] at hL
        cases hg : u.gen_token with
        | Ok toku =>
          rw [nextPreF_step_ok hmv hg] at hnp
          simp only [Option.some.injEq, Prod.mk.injEq] at hnp
          obtain ⟨-, rfl⟩ := hnp
          exact hpu
        | Skip =>
          rw [nextPreF_step_skip hmv hg] at hnp
          exact nextPre_prev hu hg hpu hnp
        | Boundary => exact absurd hg (gen_ne_boundary u)

/-- C1 witness: the amended round trip at the counterexample's own
position.  `prev()` from `c1Tok` yields the hexdump token at `c1Mid`;
the theorem returns a successor position that again pulls back exactly
to `(hexdump token, c1Mid)`, as does `c1Tok` itself. -/
theorem C1_round_trip_witness :
    ∃ t2, Tokenizer.nextPostF 1 c1Mid = some (some c1HexTok, t2) ∧
      prevOkRel t2 (some c1HexTok, c1Mid) ∧ prevOkRel c1Tok (some c1HexTok, c1Mid) :=
  (@C1_round_trip c1Node c1Tok
    ⟨rfl, ⟨StackOK.top, True.intro⟩, True.intro⟩).1 2 c1HexTok c1Mid rfl

/-- C2: over any well-formed root, if the forward walk (repeated
`next_postincrement` from `at_beginning` until it yields no token)
completes with token list `l`, then the backward walk (repeated `prev`
from `at_end` until it yields no token) completes with exactly
`l.reverse` — the two walks produce the same sequence up to
reversal. -/
theorem C2_walk_reversal {root : Node} {f : Nat} {l : List Token}
    (hwf : Node.wfB root = true)
    (h : Tokenizer.walkFwdF f (Tokenizer.at_beginning root) = some l) :
    ∃ g, Tokenizer.walkBwdF g (Tokenizer.at_end root) = some l.reverse := by
  have hb : ∃ g, Tokenizer.walkBwdF g (Tokenizer.at_beginning root) = some [] := ⟨1, rfl⟩
  have hmain := fwd_to_bwd f (Tokenizer.at_beginning root) l []
    (at_beginning_validX hwf) hb h
  simpa using hmain

/-- C2 witness: on the hardcoded two-node tree the forward walk
completes with the expected 15-token stream, and the theorem produces
the reversed backward walk. -/
theorem C2_walk_reversal_witness :
    Tokenizer.walkFwdF 100 (Tokenizer.at_beginning hcRoot) = some hcExpected ∧
    ∃ g, Tokenizer.walkBwdF g (Tokenizer.at_end hcRoot) = some hcExpected.reverse :=
  ⟨rfl, C2_walk_reversal (f := 100) rfl rfl⟩

end Charm
